import Mathlib

/-!
Verification of the mixlab engine core (src/engine.rs) against its design
specification. The Rust `HashMap`s are modelled as association lists with
unique keys; `HashMap` iteration order is unspecified in Rust, so wherever
the code iterates a map or set (the terminal set of the per-tick scheduler)
the enumeration is taken as an explicit parameter. Machine integers are
modelled as `Nat` (ids are small and never overflow in the source).
-/

namespace Mixlab

abbrev ModuleId := Nat
abbrev SessionId := Nat
abbrev ClientSequence := Nat

/-- `InputId = (ModuleId, index)` from mixlab_protocol. -/
structure InputId where
  module : ModuleId
  index : Nat
deriving DecidableEq, Repr

/-- `OutputId = (ModuleId, index)` from mixlab_protocol. -/
structure OutputId where
  module : ModuleId
  index : Nat
deriving DecidableEq, Repr

/-- Modelled from the spec: `LineType` lives in the mixlab_protocol crate,
which is not under src/. Per §3 it is a closed enumeration with at least
mono audio, stereo audio and video. -/
inductive LineType
  | mono
  | stereo
  | video
deriving DecidableEq, Repr

/-- Module parameters are opaque to the engine core; modelled as `Nat`. -/
abbrev Params := Nat

/-- Indications are opaque to the engine core; modelled as `Nat`. -/
abbrev Indic := Nat

/-- Window geometry is opaque to the engine ("no engine semantics; passed
through"); modelled as `Nat` with `0` as the `Default::default()` value. -/
abbrev WindowGeometry := Nat

/-- Association list standing in for `std::collections::HashMap`.
Keys are unique in every map the engine constructs; the list order stands
for the (unspecified) iteration order. -/
abbrev AList (k v : Type) := List (k × v)

/-- `HashMap::get`. -/
def lookupA {k v : Type} [DecidableEq k] : AList k v → k → Option v
  | [], _ => none
  | (a, b) :: rest, key => if a = key then some b else lookupA rest key

/-- `HashMap::insert`: replaces the value at an existing key, otherwise
adds a fresh entry. -/
def insertA {k v : Type} [DecidableEq k] : AList k v → k → v → AList k v
  | [], key, val => [(key, val)]
  | (a, b) :: rest, key, val =>
      if a = key then (key, val) :: rest else (a, b) :: insertA rest key val

/-- `HashMap::remove` (maps built by the engine have unique keys, so
filtering all occurrences of the key coincides with removing the entry). -/
def removeA {k v : Type} [DecidableEq k] (m : AList k v) (key : k) : AList k v :=
  m.filter (fun p => decide (p.1 ≠ key))

/-- Key list of a map. -/
def keysA {k v : Type} (m : AList k v) : List k :=
  m.map Prod.fst

/-- Modelled from the spec: the `Module` dispatch enum (src/module/mod.rs) is
not under src/. Per the module contract (§4.4) a module carries its
parameters and fixed typed input/output terminal lists; `inputs()` and
`outputs()` are "fixed, stable for the module's lifetime". -/
structure Module where
  params : Params
  inputs : List LineType
  outputs : List LineType
deriving DecidableEq, Repr

/-- Modelled from the spec: `update(params)` re-parameterises in place; the
terminal lists are fixed for the module's lifetime (§4.4; all three module
implementations under src/module/ keep `inputs()`/`outputs()` constant). -/
def Module.update (m : Module) (p : Params) : Module :=
  { m with params := p }

/-- `TerminalId` from mixlab_protocol: either an input or an output port. -/
inductive TerminalId
  | input (i : InputId)
  | output (o : OutputId)
deriving DecidableEq, Repr

/-- `Workspace` (engine.rs): module map, geometry map, connection map,
indication map and the module id sequence. `util::Sequence` is not under
src/; modelled from the spec (§3) as a monotonically increasing counter
starting at 1 (it yields `NonZeroUsize`), where `next()` returns the
current value and increments. -/
structure Workspace where
  module_seq : Nat
  modules : AList ModuleId Module
  geometry : AList ModuleId WindowGeometry
  connections : AList InputId OutputId
  indications : AList ModuleId Indic
deriving DecidableEq, Repr

/-- `Workspace::new`. -/
def Workspace.new : Workspace :=
  { module_seq := 1, modules := [], geometry := [], connections := [], indications := [] }

/-- `Workspace::terminal_type`. -/
def Workspace.terminal_type (ws : Workspace) : TerminalId → Option LineType
  | .input i => (lookupA ws.modules i.module).bind fun m => m.inputs[i.index]?
  | .output o => (lookupA ws.modules o.module).bind fun m => m.outputs[o.index]?

/-- `ConnectError` (engine.rs). -/
inductive ConnectError
  | NoInput
  | NoOutput
  | TypeMismatch
deriving DecidableEq, Repr

/-- `Workspace::connect`. The Rust method takes `&mut self` and only
mutates in the success branch; modelled by returning the result together
with the (possibly unchanged) workspace. On success it inserts the
connection and returns the displaced previous output of the input. -/
def Workspace.connect (ws : Workspace) (input_id : InputId) (output_id : OutputId) :
    Except ConnectError (Option OutputId) × Workspace :=
  match ws.terminal_type (.input input_id) with
  | none => (.error .NoInput, ws)
  | some input_type =>
    match ws.terminal_type (.output output_id) with
    | none => (.error .NoOutput, ws)
    | some output_type =>
      if input_type = output_type then
        (.ok (lookupA ws.connections input_id),
         { ws with connections := insertA ws.connections input_id output_id })
      else
        (.error .TypeMismatch, ws)

/-- `ClientOp` from mixlab_protocol (shape fixed by its use in engine.rs). -/
inductive ClientOp
  | CreateModule (params : Params) (geometry : WindowGeometry)
  | UpdateModuleParams (id : ModuleId) (params : Params)
  | UpdateWindowGeometry (id : ModuleId) (geometry : WindowGeometry)
  | DeleteModule (id : ModuleId)
  | CreateConnection (input : InputId) (output : OutputId)
  | DeleteConnection (input : InputId)
deriving DecidableEq, Repr

/-- `ServerUpdate` from mixlab_protocol (shape fixed by its use in engine.rs). -/
inductive ServerUpdate
  | CreateModule (id : ModuleId) (params : Params) (geometry : WindowGeometry)
      (ind : Indic) (inputs : List LineType) (outputs : List LineType)
  | UpdateModuleParams (id : ModuleId) (params : Params)
  | UpdateModuleIndication (id : ModuleId) (ind : Indic)
  | UpdateWindowGeometry (id : ModuleId) (geometry : WindowGeometry)
  | DeleteModule (id : ModuleId)
  | CreateConnection (input : InputId) (output : OutputId)
  | DeleteConnection (input : InputId)
deriving DecidableEq, Repr

/-- `OpClock(SessionId, ClientSequence)`. -/
structure OpClock where
  session : SessionId
  sequence : ClientSequence
deriving DecidableEq, Repr

/-- `EngineEvent` (engine.rs). -/
inductive EngineEvent
  | Sync (clock : OpClock)
  | ServerUpdate (u : Mixlab.ServerUpdate)
deriving DecidableEq, Repr

/-- Whether a connection entry touches the given module at either endpoint
(the predicate of the `DeleteModule` sweep in `Engine::client_update`). -/
def touches (id : ModuleId) (c : InputId × OutputId) : Bool :=
  decide (c.1.module = id) || decide (c.2.module = id)

/-- `Engine::client_update`: processes one `ClientMessage`, returning the
new workspace and the list of events sent on the broadcast log, in emission
order. `Module::create` is opaque to the engine and passed as a parameter.
The trailing `sync_log(clock)` of the Rust function appears as the final
`Sync` event of every branch. -/
def client_update (create : Params → Module × Indic)
    (session_id : SessionId) (sequence : ClientSequence) (op : ClientOp)
    (ws : Workspace) : Workspace × List EngineEvent :=
  let clock : OpClock := ⟨session_id, sequence⟩
  match op with
  | .CreateModule params geometry =>
      let id := ws.module_seq
      let md := (create params).1
      let ind := (create params).2
      let ws' := { ws with
        module_seq := ws.module_seq + 1
        modules := insertA ws.modules id md
        geometry := insertA ws.geometry id geometry
        indications := insertA ws.indications id ind }
      (ws', [.ServerUpdate (.CreateModule id params geometry ind md.inputs md.outputs),
             .Sync clock])
  | .UpdateModuleParams id params =>
      match lookupA ws.modules id with
      | some m =>
          ({ ws with modules := insertA ws.modules id (m.update params) },
           [.ServerUpdate (.UpdateModuleParams id params), .Sync clock])
      | none => (ws, [.Sync clock])
  | .UpdateWindowGeometry id geometry =>
      match lookupA ws.geometry id with
      | some _ =>
          ({ ws with geometry := insertA ws.geometry id geometry },
           [.ServerUpdate (.UpdateWindowGeometry id geometry), .Sync clock])
      | none => (ws, [.Sync clock])
  | .DeleteModule id =>
      let deleted := ws.connections.filter (touches id)
      let ws1 := { ws with connections := ws.connections.filter (fun c => !(touches id c)) }
      let delEvents := deleted.map (fun c => EngineEvent.ServerUpdate (.DeleteConnection c.1))
      if (lookupA ws.modules id).isSome then
        ({ ws1 with modules := removeA ws.modules id },
         delEvents ++ [.ServerUpdate (.DeleteModule id), .Sync clock])
      else
        (ws1, delEvents ++ [.Sync clock])
  | .CreateConnection input output =>
      match ws.connect input output with
      | (.ok old, ws') =>
          (ws', (match old with
                 | some _ => [EngineEvent.ServerUpdate (.DeleteConnection input)]
                 | none => []) ++
                [.ServerUpdate (.CreateConnection input output), .Sync clock])
      | (.error _, ws') => (ws', [.Sync clock])
  | .DeleteConnection input =>
      match lookupA ws.connections input with
      | some _ =>
          ({ ws with connections := removeA ws.connections input },
           [.ServerUpdate (.DeleteConnection input), .Sync clock])
      | none => (ws, [.Sync clock])

/-- A client message as consumed by the engine: session id, client sequence
number and operation. -/
abbrev ClientMessage := SessionId × ClientSequence × ClientOp

/-- Fold a list of client messages over a workspace (the engine processes
queued commands in arrival order). -/
def apply_ops (create : Params → Module × Indic) (msgs : List ClientMessage)
    (ws : Workspace) : Workspace :=
  msgs.foldl (fun w msg => (client_update create msg.1 msg.2.1 msg.2.2 w).1) ws

/-! ## Per-tick topological scheduler (`Engine::run_tick`, lines 356-409) -/

/-- Scheduler state (the `Topsort` struct of `run_tick`): the run order
accumulated in post-order and the set of visited modules. -/
structure Topsort where
  run_order : List ModuleId
  seen : List ModuleId
deriving DecidableEq, Repr

section Scheduler

variable (modules : AList ModuleId Module) (connections : AList InputId OutputId)

mutual

/-- The recursive `traverse` of `run_tick`: skip an already seen module,
otherwise mark it seen, recurse into the source of every connected input
(in ascending input index order, as the Rust `for i in 0..len` loop does)
and append the module to the run order in post-order. The Rust function
recurses on the actual call stack; the `fuel` argument only bounds the
recursion depth and is chosen large enough to never run out (the seen set
grows at every nested call). If the module id is absent from the module
map the Rust code would panic after marking it seen; that branch marks the
module seen and stops, and is unreachable for workspaces with referential
integrity. -/
def traverse : Nat → ModuleId → Topsort → Topsort
  | 0, _, st => st
  | Nat.succ fuel, module_id, st =>
    if module_id ∈ st.seen then st
    else
      let st1 : Topsort := ⟨st.run_order, module_id :: st.seen⟩
      match lookupA modules module_id with
      | none => st1
      | some md =>
        let st2 := traverse_inputs fuel (List.range md.inputs.length) module_id st1
        ⟨st2.run_order ++ [module_id], st2.seen⟩

/-- The `for i in 0..module.inputs().len()` loop body of `traverse`:
for each input index, if the input is connected, recurse into the module
producing the connected output. -/
def traverse_inputs : Nat → List Nat → ModuleId → Topsort → Topsort
  | _, [], _, st => st
  | fuel, i :: rest, module_id, st =>
    let st' := match lookupA connections ⟨module_id, i⟩ with
      | some output_id => traverse fuel output_id.module st
      | none => st
    traverse_inputs fuel rest module_id st'

end

/-- The terminal module set of `run_tick`: all module ids minus the modules
appearing as the source of some connection. The list order is the
enumeration order of the underlying `HashSet`, which Rust leaves
unspecified; this definition fixes the module-map order as one such
enumeration, and theorems that depend on the enumeration take it as an
explicit parameter. -/
def terminal_ids : List ModuleId :=
  (keysA modules).filter
    (fun id => decide (id ∉ connections.map (fun c => c.2.module)))

/-- The run order computed by one tick of `run_tick`, starting the DFS from
the terminal modules in the given enumeration order. The fuel
`modules.length + 1` strictly exceeds the number of modules, so the bounded
recursion never runs out (proved below). -/
def run_order_with (order : List ModuleId) : List ModuleId :=
  (order.foldl (fun st id => traverse modules connections (modules.length + 1) id st)
    ⟨[], []⟩).run_order

end Scheduler

/-- The run order of one tick with the canonical terminal enumeration. -/
def run_order (ws : Workspace) : List ModuleId :=
  run_order_with ws.modules ws.connections (terminal_ids ws.modules ws.connections)

/-! ## Persistence (`Workspace::save` / `Workspace::load`, mod save) -/

/-- `save::Module`: params, geometry and one optional connected `OutputId`
per input (src/engine/save.rs is not under src/; the layout is fixed by its
use in `Workspace::save`/`load` and by spec §6). -/
structure SavedModule where
  params : Params
  geometry : WindowGeometry
  inputs : List (Option OutputId)
deriving DecidableEq, Repr

/-- `save::Workspace`: the module id sequence and the saved modules. -/
structure SavedWorkspace where
  module_seq : Nat
  modules : AList ModuleId SavedModule
deriving DecidableEq, Repr

/-- `Workspace::save`: for each module record its params, its geometry
(`unwrap_or_default`), and for each input index the connected output, if
any. -/
def Workspace.save (ws : Workspace) : SavedWorkspace :=
  { module_seq := ws.module_seq
    modules := ws.modules.map (fun p =>
      (p.1,
       { params := p.2.params
         geometry := (lookupA ws.geometry p.1).getD 0
         inputs := (List.range p.2.inputs.length).map
           (fun idx => lookupA ws.connections ⟨p.1, idx⟩) })) }

/-- One step of the inner loop of `Workspace::load`'s connection phase:
given the enumerated saved input `(input_idx, output_id?)` of module `id`,
re-`connect` it if it was connected, silently ignoring connect errors
(`let _ = workspace.connect(...)`). -/
def load_input_step (id : ModuleId) (w : Workspace) (q : Nat × Option OutputId) : Workspace :=
  match q.2 with
  | some output_id => (w.connect ⟨id, q.1⟩ output_id).2
  | none => w

/-- The per-module loop of `Workspace::load`'s connection phase. -/
def load_module_conns (w : Workspace) (p : ModuleId × SavedModule) : Workspace :=
  p.2.inputs.enum.foldl (load_input_step p.1) w

/-- The second phase of `Workspace::load`: walk the saved modules and
re-`connect` every saved input connection. -/
def load_connections (save : SavedWorkspace) (ws : Workspace) : Workspace :=
  save.modules.foldl load_module_conns ws

/-- The first phase of `Workspace::load`: re-create every module (with its
geometry and fresh indication) from the saved params; no connections yet. -/
def load_ws0 (create : Params → Module × Indic) (save : SavedWorkspace) : Workspace :=
  { module_seq := save.module_seq
    modules := save.modules.foldl (fun acc p => insertA acc p.1 (create p.2.params).1) []
    geometry := save.modules.foldl (fun acc p => insertA acc p.1 p.2.geometry) []
    connections := []
    indications := save.modules.foldl (fun acc p => insertA acc p.1 (create p.2.params).2) [] }

/-- `Workspace::load`: re-create every module from the saved params, then
reconstruct the connections after all modules are loaded. -/
def Workspace.load (create : Params → Module × Indic) (save : SavedWorkspace) : Workspace :=
  load_connections save (load_ws0 create save)

/-! ## Association list lemmas -/

section AListLemmas

variable {k v : Type} [DecidableEq k]

theorem lookupA_insertA_self (m : AList k v) (key : k) (val : v) :
    lookupA (insertA m key val) key = some val := by
  induction m with
  | nil => simp [insertA, lookupA]
  | cons p rest ih =>
      obtain ⟨a, b⟩ := p
      by_cases h : a = key
      · simp [insertA, h, lookupA]
      · simp [insertA, h, lookupA, ih]

theorem lookupA_insertA_ne (m : AList k v) (key key' : k) (val : v) (h : key' ≠ key) :
    lookupA (insertA m key val) key' = lookupA m key' := by
  induction m with
  | nil => simp [insertA, lookupA, Ne.symm h]
  | cons p rest ih =>
      obtain ⟨a, b⟩ := p
      by_cases hp : a = key
      · subst hp
        simp [insertA, lookupA, Ne.symm h]
      · simp [insertA, hp, lookupA, ih]

theorem mem_insertA (m : AList k v) (key : k) (val : v) (p : k × v) :
    p ∈ insertA m key val → p ∈ m ∨ p = (key, val) := by
  induction m with
  | nil => intro h; simpa [insertA] using h
  | cons q rest ih =>
      intro h
      obtain ⟨a, b⟩ := q
      by_cases hq : a = key
      · subst hq
        simp only [insertA, if_true, eq_self_iff_true, List.mem_cons] at h
        rcases h with h | h
        · exact Or.inr h
        · exact Or.inl (List.mem_cons_of_mem _ h)
      · simp only [insertA, if_neg hq, List.mem_cons] at h
        rcases h with h | h
        · subst h
          exact Or.inl (List.mem_cons_self _ _)
        · rcases ih h with h' | h'
          · exact Or.inl (List.mem_cons_of_mem _ h')
          · exact Or.inr h'

theorem lookupA_removeA_self (m : AList k v) (key : k) :
    lookupA (removeA m key) key = none := by
  induction m with
  | nil => simp [removeA, lookupA]
  | cons p rest ih =>
      obtain ⟨a, b⟩ := p
      by_cases hp : a = key
      · simpa [removeA, List.filter_cons, hp] using ih
      · simpa [removeA, List.filter_cons, hp, lookupA] using ih

theorem lookupA_removeA_ne (m : AList k v) (key key' : k) (h : key' ≠ key) :
    lookupA (removeA m key) key' = lookupA m key' := by
  induction m with
  | nil => simp [removeA, lookupA]
  | cons p rest ih =>
      obtain ⟨a, b⟩ := p
      by_cases hp : a = key
      · subst hp
        simpa [removeA, List.filter_cons, lookupA, Ne.symm h] using ih
      · simp only [removeA, List.filter_cons, hp, decide_not] at ih ⊢
        simp only [decide_eq_false hp, Bool.not_false, lookupA]
        rw [ih]

theorem lookupA_mem (m : AList k v) (key : k) (val : v) :
    lookupA m key = some val → (key, val) ∈ m := by
  induction m with
  | nil => intro h; simp [lookupA] at h
  | cons p rest ih =>
      intro h
      obtain ⟨a, b⟩ := p
      rw [lookupA] at h
      by_cases hp : a = key
      · simp only [if_pos hp, Option.some.injEq] at h
        subst hp
        subst h
        exact List.mem_cons_self _ _
      · simp only [if_neg hp] at h
        exact List.mem_cons_of_mem _ (ih h)

theorem lookupA_isSome_iff (m : AList k v) (key : k) :
    (lookupA m key).isSome ↔ key ∈ keysA m := by
  induction m with
  | nil => simp [lookupA, keysA]
  | cons p rest ih =>
      obtain ⟨a, b⟩ := p
      rw [lookupA]
      by_cases hp : a = key
      · simp [hp, keysA]
      · simp only [if_neg hp, keysA, List.map_cons, List.mem_cons]
        rw [keysA] at ih
        simp [ih, Ne.symm hp]

theorem lookupA_eq_none_of_not_mem (m : AList k v) (key : k)
    (h : key ∉ keysA m) : lookupA m key = none := by
  cases hl : lookupA m key with
  | none => rfl
  | some val =>
      exact absurd ((lookupA_isSome_iff m key).mp (by simp [hl])) h

theorem lookupA_filter_subset (m : AList k v) (f : k × v → Bool) (key : k) (val : v)
    (h : lookupA (m.filter f) key = some val) : (key, val) ∈ m :=
  List.mem_of_mem_filter (lookupA_mem _ _ _ h)

end AListLemmas

/-! ## Behaviour of `Workspace::connect` (shared helper lemmas) -/

theorem connect_no_input (ws : Workspace) (i : InputId) (o : OutputId)
    (h : ws.terminal_type (.input i) = none) :
    ws.connect i o = (.error .NoInput, ws) := by
  simp [Workspace.connect, h]

theorem connect_no_output (ws : Workspace) (i : InputId) (o : OutputId) (ti : LineType)
    (h1 : ws.terminal_type (.input i) = some ti)
    (h2 : ws.terminal_type (.output o) = none) :
    ws.connect i o = (.error .NoOutput, ws) := by
  simp [Workspace.connect, h1, h2]

theorem connect_mismatch (ws : Workspace) (i : InputId) (o : OutputId) (ti tout : LineType)
    (h1 : ws.terminal_type (.input i) = some ti)
    (h2 : ws.terminal_type (.output o) = some tout)
    (hne : ti ≠ tout) :
    ws.connect i o = (.error .TypeMismatch, ws) := by
  simp [Workspace.connect, h1, h2, hne]

theorem connect_ok (ws : Workspace) (i : InputId) (o : OutputId) (t : LineType)
    (h1 : ws.terminal_type (.input i) = some t)
    (h2 : ws.terminal_type (.output o) = some t) :
    ws.connect i o =
      (.ok (lookupA ws.connections i),
       { ws with connections := insertA ws.connections i o }) := by
  simp [Workspace.connect, h1, h2]

theorem connect_error_unchanged (ws ws' : Workspace) (i : InputId) (o : OutputId)
    (e : ConnectError) (h : ws.connect i o = (.error e, ws')) : ws' = ws := by
  cases hin : ws.terminal_type (.input i) with
  | none =>
      rw [connect_no_input ws i o hin] at h
      exact (congrArg Prod.snd h).symm
  | some ti =>
      cases hout : ws.terminal_type (.output o) with
      | none =>
          rw [connect_no_output ws i o ti hin hout] at h
          exact (congrArg Prod.snd h).symm
      | some tout =>
          by_cases hto : ti = tout
          · subst hto
            rw [connect_ok ws i o ti hin hout] at h
            exact absurd (congrArg Prod.fst h) (by simp)
          · rw [connect_mismatch ws i o ti tout hin hout hto] at h
            exact (congrArg Prod.snd h).symm

/-! ## Claim C5 -/

/-- C5: `Workspace::connect(input, output)` returns `Err(NoInput)` when the
input endpoint's module or terminal index does not exist, `Err(NoOutput)`
when the output endpoint does not exist, `Err(TypeMismatch)` when both
exist but their line types differ, and otherwise inserts the connection and
returns `Ok` of the displaced prior output (`some` exactly when the input
was already connected); on every error the workspace, and in particular
its connection map, is unchanged. -/
theorem C5_connect_cases (ws : Workspace) (i : InputId) (o : OutputId) :
    (ws.terminal_type (.input i) = none →
        ws.connect i o = (.error .NoInput, ws))
    ∧ (∀ ti, ws.terminal_type (.input i) = some ti →
        ws.terminal_type (.output o) = none →
        ws.connect i o = (.error .NoOutput, ws))
    ∧ (∀ ti tout, ws.terminal_type (.input i) = some ti →
        ws.terminal_type (.output o) = some tout → ti ≠ tout →
        ws.connect i o = (.error .TypeMismatch, ws))
    ∧ (∀ t, ws.terminal_type (.input i) = some t →
        ws.terminal_type (.output o) = some t →
        ws.connect i o =
          (.ok (lookupA ws.connections i),
           { ws with connections := insertA ws.connections i o }))
    ∧ (∀ e ws', ws.connect i o = (.error e, ws') → ws' = ws) :=
  ⟨connect_no_input ws i o,
   fun ti => connect_no_output ws i o ti,
   fun ti tout => connect_mismatch ws i o ti tout,
   fun t => connect_ok ws i o t,
   fun e ws' => connect_error_unchanged ws ws' i o e⟩

/-- Concrete modules and workspaces used by the witnesses below. -/
def mMono : Module := ⟨0, [.mono], [.mono]⟩

/-- A two-module workspace with no connections (both mono in, mono out). -/
def wsA : Workspace :=
  { module_seq := 3, modules := [(1, mMono), (2, mMono)], geometry := [(1, 0), (2, 0)],
    connections := [], indications := [(1, 0), (2, 0)] }

/-- `wsA` with input 1.0 already connected to output 2.0. -/
def wsB : Workspace :=
  { wsA with connections := [(⟨1, 0⟩, ⟨2, 0⟩)] }

/-- Witness for C5: on `wsA`, connecting input 1.0 to output 2.0 succeeds
with no displaced output; on the empty workspace the same connect fails
with `NoInput` and leaves the workspace unchanged. -/
theorem C5_connect_cases_witness :
    (wsA.terminal_type (.input ⟨1, 0⟩) = some .mono
      ∧ wsA.terminal_type (.output ⟨2, 0⟩) = some .mono
      ∧ wsA.connect ⟨1, 0⟩ ⟨2, 0⟩ =
          (.ok none, { wsA with connections := insertA wsA.connections ⟨1, 0⟩ ⟨2, 0⟩ }))
    ∧ (Workspace.new.terminal_type (.input ⟨1, 0⟩) = none
      ∧ Workspace.new.connect ⟨1, 0⟩ ⟨2, 0⟩ = (.error .NoInput, Workspace.new)) :=
  ⟨⟨by decide, by decide,
    (C5_connect_cases wsA ⟨1, 0⟩ ⟨2, 0⟩).2.2.2.1 .mono (by decide) (by decide)⟩,
   ⟨by decide, (C5_connect_cases Workspace.new ⟨1, 0⟩ ⟨2, 0⟩).1 (by decide)⟩⟩

/-! ## Claim C6 -/

/-- C6: processing any client message with session `s` and sequence `q`
emits a list of events of the form `updates ++ [Sync (OpClock s q)]` where
`updates` consists only of `ServerUpdate` events: there is exactly one
`Sync(OpClock(s, q))` event, it comes after every `ServerUpdate` generated
by the command, and it is present even when the command produced no
`ServerUpdate` (unknown id, failed typecheck, absent connection). -/
theorem C6_sync_after_updates (create : Params → Module × Indic)
    (s : SessionId) (q : ClientSequence) (op : ClientOp) (ws : Workspace) :
    ∃ us : List ServerUpdate,
      (client_update create s q op ws).2 =
        us.map EngineEvent.ServerUpdate ++ [EngineEvent.Sync ⟨s, q⟩] := by
  cases op with
  | CreateModule params geometry =>
      exact ⟨[.CreateModule ws.module_seq params geometry (create params).2
        (create params).1.inputs (create params).1.outputs], rfl⟩
  | UpdateModuleParams id params =>
      cases h : lookupA ws.modules id with
      | some m => exact ⟨[.UpdateModuleParams id params], by simp [client_update, h]⟩
      | none => exact ⟨[], by simp [client_update, h]⟩
  | UpdateWindowGeometry id geometry =>
      cases h : lookupA ws.geometry id with
      | some g => exact ⟨[.UpdateWindowGeometry id geometry], by simp [client_update, h]⟩
      | none => exact ⟨[], by simp [client_update, h]⟩
  | DeleteModule id =>
      cases h : (lookupA ws.modules id).isSome with
      | true =>
          refine ⟨(ws.connections.filter (touches id)).map
            (fun c => ServerUpdate.DeleteConnection c.1) ++ [.DeleteModule id], ?_⟩
          simp [client_update, h, List.map_append, List.map_map, Function.comp]
      | false =>
          refine ⟨(ws.connections.filter (touches id)).map
            (fun c => ServerUpdate.DeleteConnection c.1), ?_⟩
          simp [client_update, h, List.map_append, List.map_map, Function.comp]
  | CreateConnection input output =>
      rcases hc : ws.connect input output with ⟨r, ws'⟩
      cases r with
      | ok old =>
          cases old with
          | some prior =>
              exact ⟨[.DeleteConnection input, .CreateConnection input output],
                by simp [client_update, hc]⟩
          | none =>
              exact ⟨[.CreateConnection input output], by simp [client_update, hc]⟩
      | error e => exact ⟨[], by simp [client_update, hc]⟩
  | DeleteConnection input =>
      cases h : lookupA ws.connections input with
      | some o => exact ⟨[.DeleteConnection input], by simp [client_update, h]⟩
      | none => exact ⟨[], by simp [client_update, h]⟩

/-! ## Claim C7 -/

/-- C7: for a `CreateConnection(input, output)` command whose typecheck
succeeds, if a prior connection on the same input is displaced the engine
emits `DeleteConnection(input)` first and `CreateConnection(input, output)`
second (then the `Sync` barrier); when no prior connection existed it emits
no `DeleteConnection`, only `CreateConnection` followed by `Sync`. -/
theorem C7_displacement_events (create : Params → Module × Indic)
    (s : SessionId) (q : ClientSequence) (i : InputId) (o : OutputId)
    (ws : Workspace) (t : LineType)
    (h1 : ws.terminal_type (.input i) = some t)
    (h2 : ws.terminal_type (.output o) = some t) :
    (∀ old, lookupA ws.connections i = some old →
      (client_update create s q (.CreateConnection i o) ws).2 =
        [.ServerUpdate (.DeleteConnection i),
         .ServerUpdate (.CreateConnection i o), .Sync ⟨s, q⟩])
    ∧ (lookupA ws.connections i = none →
      (client_update create s q (.CreateConnection i o) ws).2 =
        [.ServerUpdate (.CreateConnection i o), .Sync ⟨s, q⟩]) := by
  constructor
  · intro old hold
    simp [client_update, connect_ok ws i o t h1 h2, hold]
  · intro hnone
    simp [client_update, connect_ok ws i o t h1 h2, hnone]

/-- Witness for C7: on `wsB` (input 1.0 already connected) the engine
emits the delete-then-create pair; on `wsA` (no prior connection) it emits
only the create. -/
theorem C7_displacement_events_witness :
    ((client_update (fun p => (mMono, p)) 1 1 (.CreateConnection ⟨1, 0⟩ ⟨2, 0⟩) wsB).2 =
      [.ServerUpdate (.DeleteConnection ⟨1, 0⟩),
       .ServerUpdate (.CreateConnection ⟨1, 0⟩ ⟨2, 0⟩), .Sync ⟨1, 1⟩])
    ∧ ((client_update (fun p => (mMono, p)) 1 1 (.CreateConnection ⟨1, 0⟩ ⟨2, 0⟩) wsA).2 =
      [.ServerUpdate (.CreateConnection ⟨1, 0⟩ ⟨2, 0⟩), .Sync ⟨1, 1⟩]) :=
  ⟨(C7_displacement_events (fun p => (mMono, p)) 1 1 ⟨1, 0⟩ ⟨2, 0⟩ wsB .mono
      (by decide) (by decide)).1 ⟨2, 0⟩ (by decide),
   (C7_displacement_events (fun p => (mMono, p)) 1 1 ⟨1, 0⟩ ⟨2, 0⟩ wsA .mono
      (by decide) (by decide)).2 (by decide)⟩

/-! ## Claim C10 -/

/-- C10: a `CreateConnection(input, output)` command naming exactly the
connection already present (the input is already mapped to that same
output) still performs the insert and emits `DeleteConnection(input)`
followed by `CreateConnection(input, output)` and the `Sync` barrier, even
though the connection map is unchanged (extensionally equal lookups). -/
theorem C10_redundant_create (create : Params → Module × Indic)
    (s : SessionId) (q : ClientSequence) (i : InputId) (o : OutputId)
    (ws : Workspace) (t : LineType)
    (h1 : ws.terminal_type (.input i) = some t)
    (h2 : ws.terminal_type (.output o) = some t)
    (hmem : lookupA ws.connections i = some o) :
    (client_update create s q (.CreateConnection i o) ws).2 =
      [.ServerUpdate (.DeleteConnection i),
       .ServerUpdate (.CreateConnection i o), .Sync ⟨s, q⟩]
    ∧ ∀ j, lookupA ((client_update create s q (.CreateConnection i o) ws).1).connections j
        = lookupA ws.connections j := by
  constructor
  · simp [client_update, connect_ok ws i o t h1 h2, hmem]
  · intro j
    have hws : (client_update create s q (.CreateConnection i o) ws).1 =
        { ws with connections := insertA ws.connections i o } := by
      simp [client_update, connect_ok ws i o t h1 h2, hmem]
    rw [hws]
    by_cases hj : j = i
    · subst hj
      rw [lookupA_insertA_self, hmem]
    · exact lookupA_insertA_ne _ _ _ _ hj

/-- Witness for C10: re-creating the already present connection 1.0 ← 2.0
of `wsB` emits the delete-then-create pair and leaves every lookup in the
connection map unchanged. -/
theorem C10_redundant_create_witness :
    ((client_update (fun p => (mMono, p)) 1 2 (.CreateConnection ⟨1, 0⟩ ⟨2, 0⟩) wsB).2 =
      [.ServerUpdate (.DeleteConnection ⟨1, 0⟩),
       .ServerUpdate (.CreateConnection ⟨1, 0⟩ ⟨2, 0⟩), .Sync ⟨1, 2⟩])
    ∧ lookupA ((client_update (fun p => (mMono, p)) 1 2
        (.CreateConnection ⟨1, 0⟩ ⟨2, 0⟩) wsB).1).connections ⟨1, 0⟩ =
        lookupA wsB.connections ⟨1, 0⟩ :=
  ⟨(C10_redundant_create (fun p => (mMono, p)) 1 2 ⟨1, 0⟩ ⟨2, 0⟩ wsB .mono
      (by decide) (by decide) (by decide)).1,
   (C10_redundant_create (fun p => (mMono, p)) 1 2 ⟨1, 0⟩ ⟨2, 0⟩ wsB .mono
      (by decide) (by decide) (by decide)).2 ⟨1, 0⟩⟩

/-! ## Claim C2: referential integrity -/

/-- The module id of either endpoint kind (`TerminalId::module_id`). -/
def TerminalId.module_id : TerminalId → ModuleId
  | .input i => i.module
  | .output o => o.module

/-- Referential integrity of the connection map: every entry's input
endpoint exists (existing module, in-range index) and has the same line
type as its output endpoint (which therefore also exists). -/
def ref_ok (ws : Workspace) : Prop :=
  ∀ p ∈ ws.connections,
    (ws.terminal_type (.input p.1)).isSome
    ∧ ws.terminal_type (.input p.1) = ws.terminal_type (.output p.2)

instance ref_ok_decidable (ws : Workspace) : Decidable (ref_ok ws) :=
  decidable_of_iff (∀ p ∈ ws.connections,
    (ws.terminal_type (.input p.1)).isSome
    ∧ ws.terminal_type (.input p.1) = ws.terminal_type (.output p.2)) Iff.rfl

/-- All allocated module ids are below the id sequence counter. -/
def ids_fresh (ws : Workspace) : Prop :=
  ∀ id : ModuleId, (lookupA ws.modules id).isSome → id < ws.module_seq

theorem terminal_type_congr (ws ws' : Workspace) (t : TerminalId)
    (h : lookupA ws'.modules t.module_id = lookupA ws.modules t.module_id) :
    ws'.terminal_type t = ws.terminal_type t := by
  cases t with
  | input i => simp only [Workspace.terminal_type, TerminalId.module_id] at h ⊢; rw [h]
  | output o => simp only [Workspace.terminal_type, TerminalId.module_id] at h ⊢; rw [h]

theorem terminal_type_insert_fresh (ws ws' : Workspace) (id : ModuleId) (md : Module)
    (hmods : ws'.modules = insertA ws.modules id md)
    (hid : lookupA ws.modules id = none) (t : TerminalId)
    (ht : (ws.terminal_type t).isSome) :
    ws'.terminal_type t = ws.terminal_type t := by
  apply terminal_type_congr
  have hne : t.module_id ≠ id := by
    intro hcontra
    cases t with
    | input i =>
        simp only [TerminalId.module_id] at hcontra
        simp [Workspace.terminal_type, hcontra, hid] at ht
    | output o =>
        simp only [TerminalId.module_id] at hcontra
        simp [Workspace.terminal_type, hcontra, hid] at ht
  rw [hmods]
  exact lookupA_insertA_ne _ _ _ _ hne

theorem terminal_type_update_params (ws ws' : Workspace) (id : ModuleId) (m : Module)
    (pms : Params) (hmods : ws'.modules = insertA ws.modules id (m.update pms))
    (h : lookupA ws.modules id = some m) (t : TerminalId) :
    ws'.terminal_type t = ws.terminal_type t := by
  cases t with
  | input i =>
      by_cases hm : i.module = id
      · subst hm
        simp [Workspace.terminal_type, hmods, lookupA_insertA_self, h, Module.update]
      · simp [Workspace.terminal_type, hmods, lookupA_insertA_ne _ _ _ _ hm]
  | output o =>
      by_cases hm : o.module = id
      · subst hm
        simp [Workspace.terminal_type, hmods, lookupA_insertA_self, h, Module.update]
      · simp [Workspace.terminal_type, hmods, lookupA_insertA_ne _ _ _ _ hm]

theorem terminal_type_remove (ws ws' : Workspace) (id : ModuleId)
    (hmods : ws'.modules = removeA ws.modules id) (t : TerminalId)
    (hne : t.module_id ≠ id) :
    ws'.terminal_type t = ws.terminal_type t := by
  apply terminal_type_congr
  rw [hmods]
  exact lookupA_removeA_ne _ _ _ hne

theorem terminal_type_same_modules (ws ws' : Workspace)
    (hmods : ws'.modules = ws.modules) (t : TerminalId) :
    ws'.terminal_type t = ws.terminal_type t :=
  terminal_type_congr ws ws' t (by rw [hmods])

/-- Inversion of the successful branch of `Workspace::connect`. -/
theorem connect_ok_inv (ws ws' : Workspace) (i : InputId) (o : OutputId)
    (old : Option OutputId) (h : ws.connect i o = (.ok old, ws')) :
    (ws.terminal_type (.input i)).isSome
    ∧ ws.terminal_type (.input i) = ws.terminal_type (.output o)
    ∧ old = lookupA ws.connections i
    ∧ ws' = { ws with connections := insertA ws.connections i o } := by
  cases hin : ws.terminal_type (.input i) with
  | none =>
      rw [connect_no_input ws i o hin] at h
      exact absurd (congrArg Prod.fst h) (by simp)
  | some ti =>
      cases hout : ws.terminal_type (.output o) with
      | none =>
          rw [connect_no_output ws i o ti hin hout] at h
          exact absurd (congrArg Prod.fst h) (by simp)
      | some tout =>
          by_cases hto : ti = tout
          · subst hto
            rw [connect_ok ws i o ti hin hout] at h
            have h1 := congrArg Prod.fst h
            have h2 := congrArg Prod.snd h
            simp only at h1 h2
            exact ⟨by simp, rfl, (Except.ok.inj h1).symm, h2.symm⟩
          · rw [connect_mismatch ws i o ti tout hin hout hto] at h
            exact absurd (congrArg Prod.fst h) (by simp)

theorem touches_false (id : ModuleId) (c : InputId × OutputId)
    (h : touches id c = false) : c.1.module ≠ id ∧ c.2.module ≠ id := by
  simp only [touches, Bool.or_eq_false_iff, decide_eq_false_iff_not] at h
  exact h

/-- A single processed command preserves referential integrity and id
freshness. -/
theorem inv_client_update (create : Params → Module × Indic)
    (s : SessionId) (q : ClientSequence) (op : ClientOp) (ws : Workspace)
    (href : ref_ok ws) (hfresh : ids_fresh ws) :
    ref_ok (client_update create s q op ws).1
    ∧ ids_fresh (client_update create s q op ws).1 := by
  cases op with
  | CreateModule pms g =>
      have hid : lookupA ws.modules ws.module_seq = none := by
        cases hl : lookupA ws.modules ws.module_seq with
        | none => rfl
        | some m =>
            exact absurd (hfresh ws.module_seq (by simp [hl])) (lt_irrefl _)
      have hmods : ((client_update create s q (.CreateModule pms g) ws).1).modules =
          insertA ws.modules ws.module_seq (create pms).1 := rfl
      have hconns : ((client_update create s q (.CreateModule pms g) ws).1).connections =
          ws.connections := rfl
      have hseq : ((client_update create s q (.CreateModule pms g) ws).1).module_seq =
          ws.module_seq + 1 := rfl
      constructor
      · intro p hp
        have hp' : p ∈ ws.connections := hp
        have hold := href p hp'
        have h1 := terminal_type_insert_fresh ws _ ws.module_seq (create pms).1 hmods hid
          (.input p.1) hold.1
        have h2 := terminal_type_insert_fresh ws _ ws.module_seq (create pms).1 hmods hid
          (.output p.2) (by rw [← hold.2]; exact hold.1)
        rw [h1, h2]
        exact hold
      · intro id hsome
        have hsome' : (lookupA (insertA ws.modules ws.module_seq (create pms).1) id).isSome :=
          hsome
        show id < ws.module_seq + 1
        by_cases hi : id = ws.module_seq
        · exact lt_of_eq_of_lt hi (Nat.lt_succ_self _)
        · rw [lookupA_insertA_ne _ _ _ _ hi] at hsome'
          exact Nat.lt_succ_of_lt (hfresh id hsome')
  | UpdateModuleParams id pms =>
      cases hl : lookupA ws.modules id with
      | none => simpa [client_update, hl] using ⟨href, hfresh⟩
      | some m =>
          have hmods : ((client_update create s q (.UpdateModuleParams id pms) ws).1).modules =
              insertA ws.modules id (m.update pms) := by simp [client_update, hl]
          have hconns : ((client_update create s q (.UpdateModuleParams id pms) ws).1).connections =
              ws.connections := by simp [client_update, hl]
          have hseq : ((client_update create s q (.UpdateModuleParams id pms) ws).1).module_seq =
              ws.module_seq := by simp [client_update, hl]
          constructor
          · intro p hp
            rw [hconns] at hp
            have hold := href p hp
            rw [terminal_type_update_params ws _ id m pms hmods hl,
              terminal_type_update_params ws _ id m pms hmods hl]
            exact hold
          · intro i hsome
            rw [hmods] at hsome
            rw [hseq]
            by_cases hi : i = id
            · subst hi
              exact hfresh i (by simp [hl])
            · rw [lookupA_insertA_ne _ _ _ _ hi] at hsome
              exact hfresh i hsome
  | UpdateWindowGeometry id g =>
      cases hl : lookupA ws.geometry id with
      | none => simpa [client_update, hl] using ⟨href, hfresh⟩
      | some g0 =>
          have hmods : ((client_update create s q (.UpdateWindowGeometry id g) ws).1).modules =
              ws.modules := by simp [client_update, hl]
          have hconns : ((client_update create s q (.UpdateWindowGeometry id g) ws).1).connections =
              ws.connections := by simp [client_update, hl]
          have hseq : ((client_update create s q (.UpdateWindowGeometry id g) ws).1).module_seq =
              ws.module_seq := by simp [client_update, hl]
          constructor
          · intro p hp
            rw [hconns] at hp
            have hold := href p hp
            rw [terminal_type_same_modules ws _ hmods,
              terminal_type_same_modules ws _ hmods]
            exact hold
          · intro i hsome
            rw [hmods] at hsome
            rw [hseq]
            exact hfresh i hsome
  | DeleteModule id =>
      cases hl : (lookupA ws.modules id).isSome with
      | false =>
          have hmods : ((client_update create s q (.DeleteModule id) ws).1).modules =
              ws.modules := by simp [client_update, hl]
          have hconns : ((client_update create s q (.DeleteModule id) ws).1).connections =
              ws.connections.filter (fun c => !(touches id c)) := by simp [client_update, hl]
          have hseq : ((client_update create s q (.DeleteModule id) ws).1).module_seq =
              ws.module_seq := by simp [client_update, hl]
          constructor
          · intro p hp
            rw [hconns] at hp
            have hmem := List.mem_filter.mp hp
            have hold := href p hmem.1
            rw [terminal_type_same_modules ws _ hmods, terminal_type_same_modules ws _ hmods]
            exact hold
          · intro i hsome
            rw [hmods] at hsome
            rw [hseq]
            exact hfresh i hsome
      | true =>
          have hmods : ((client_update create s q (.DeleteModule id) ws).1).modules =
              removeA ws.modules id := by simp [client_update, hl]
          have hconns : ((client_update create s q (.DeleteModule id) ws).1).connections =
              ws.connections.filter (fun c => !(touches id c)) := by simp [client_update, hl]
          have hseq : ((client_update create s q (.DeleteModule id) ws).1).module_seq =
              ws.module_seq := by simp [client_update, hl]
          constructor
          · intro p hp
            rw [hconns] at hp
            have hmem := List.mem_filter.mp hp
            have htf := touches_false id p (by simpa using hmem.2)
            have hold := href p hmem.1
            rw [terminal_type_remove ws _ id hmods (.input p.1) htf.1,
              terminal_type_remove ws _ id hmods (.output p.2) htf.2]
            exact hold
          · intro i hsome
            rw [hmods] at hsome
            rw [hseq]
            by_cases hi : i = id
            · subst hi
              rw [lookupA_removeA_self] at hsome
              simp at hsome
            · rw [lookupA_removeA_ne _ _ _ hi] at hsome
              exact hfresh i hsome
  | CreateConnection i o =>
      rcases hc : ws.connect i o with ⟨r, ws1⟩
      cases r with
      | error e =>
          have := connect_error_unchanged ws ws1 i o e hc
          subst this
          simpa [client_update, hc] using ⟨href, hfresh⟩
      | ok old =>
          obtain ⟨hin, heq, _, hws⟩ := connect_ok_inv ws ws1 i o old hc
          have hfst : (client_update create s q (.CreateConnection i o) ws).1 = ws1 := by
            simp [client_update, hc]
          rw [hfst, hws]
          constructor
          · intro p hp
            simp only at hp
            rcases mem_insertA _ _ _ _ hp with hmem | hnew
            · exact href p hmem
            · subst hnew
              exact ⟨hin, heq⟩
          · intro idx hsome
            exact hfresh idx hsome
  | DeleteConnection i =>
      cases hl : lookupA ws.connections i with
      | none => simpa [client_update, hl] using ⟨href, hfresh⟩
      | some o =>
          have hmods : ((client_update create s q (.DeleteConnection i) ws).1).modules =
              ws.modules := by simp [client_update, hl]
          have hconns : ((client_update create s q (.DeleteConnection i) ws).1).connections =
              removeA ws.connections i := by simp [client_update, hl]
          have hseq : ((client_update create s q (.DeleteConnection i) ws).1).module_seq =
              ws.module_seq := by simp [client_update, hl]
          constructor
          · intro p hp
            rw [hconns] at hp
            have hold := href p (List.mem_of_mem_filter hp)
            rw [terminal_type_same_modules ws _ hmods, terminal_type_same_modules ws _ hmods]
            exact hold
          · intro idx hsome
            rw [hmods] at hsome
            rw [hseq]
            exact hfresh idx hsome

theorem inv_apply_ops (create : Params → Module × Indic) (msgs : List ClientMessage)
    (ws : Workspace) (href : ref_ok ws) (hfresh : ids_fresh ws) :
    ref_ok (apply_ops create msgs ws) ∧ ids_fresh (apply_ops create msgs ws) := by
  induction msgs generalizing ws with
  | nil => exact ⟨href, hfresh⟩
  | cons msg rest ih =>
      have hstep := inv_client_update create msg.1 msg.2.1 msg.2.2 ws href hfresh
      exact ih _ hstep.1 hstep.2

/-- C2: after any sequence of client commands applied to the initially
empty workspace, every entry `(input, output)` of the connection map
refers to an existing module and in-range terminal index at both endpoints
(`terminal_type` is defined), and the line type of the input terminal
equals the line type of the output terminal. This holds for every
`Module::create` implementation satisfying the module contract. -/
theorem C2_referential_integrity (create : Params → Module × Indic)
    (msgs : List ClientMessage) :
    ref_ok (apply_ops create msgs Workspace.new) :=
  (inv_apply_ops create msgs Workspace.new
    (by intro p hp; simp [Workspace.new] at hp)
    (by intro id h; simp [Workspace.new, lookupA] at h)).1

/-! ## Claim C8: geometry (and indications) versus the module map -/

/-- Every existing module has a geometry entry and an indication entry. -/
def geometry_covered (ws : Workspace) : Prop :=
  ∀ id : ModuleId, (lookupA ws.modules id).isSome →
    (lookupA ws.geometry id).isSome ∧ (lookupA ws.indications id).isSome

/-- A single processed command preserves `geometry_covered`. -/
theorem covered_client_update (create : Params → Module × Indic)
    (s : SessionId) (q : ClientSequence) (op : ClientOp) (ws : Workspace)
    (hcov : geometry_covered ws) :
    geometry_covered (client_update create s q op ws).1 := by
  cases op with
  | CreateModule pms g =>
      intro id hsome
      have hsome' : (lookupA (insertA ws.modules ws.module_seq (create pms).1) id).isSome :=
        hsome
      show (lookupA (insertA ws.geometry ws.module_seq g) id).isSome
        ∧ (lookupA (insertA ws.indications ws.module_seq (create pms).2) id).isSome
      by_cases hi : id = ws.module_seq
      · subst hi
        simp [lookupA_insertA_self]
      · rw [lookupA_insertA_ne _ _ _ _ hi] at hsome'
        have h := hcov id hsome'
        rw [lookupA_insertA_ne _ _ _ _ hi, lookupA_insertA_ne _ _ _ _ hi]
        exact h
  | UpdateModuleParams id0 pms =>
      cases hl : lookupA ws.modules id0 with
      | none => simpa [client_update, hl] using hcov
      | some m =>
          intro id hsome
          have hmods : ((client_update create s q (.UpdateModuleParams id0 pms) ws).1).modules =
              insertA ws.modules id0 (m.update pms) := by simp [client_update, hl]
          have hg : ((client_update create s q (.UpdateModuleParams id0 pms) ws).1).geometry =
              ws.geometry := by simp [client_update, hl]
          have hind : ((client_update create s q (.UpdateModuleParams id0 pms) ws).1).indications =
              ws.indications := by simp [client_update, hl]
          rw [hmods] at hsome
          rw [hg, hind]
          by_cases hi : id = id0
          · subst hi
            exact hcov id (by simp [hl])
          · rw [lookupA_insertA_ne _ _ _ _ hi] at hsome
            exact hcov id hsome
  | UpdateWindowGeometry id0 g =>
      cases hl : lookupA ws.geometry id0 with
      | none => simpa [client_update, hl] using hcov
      | some g0 =>
          intro id hsome
          have hmods : ((client_update create s q (.UpdateWindowGeometry id0 g) ws).1).modules =
              ws.modules := by simp [client_update, hl]
          have hg : ((client_update create s q (.UpdateWindowGeometry id0 g) ws).1).geometry =
              insertA ws.geometry id0 g := by simp [client_update, hl]
          have hind : ((client_update create s q (.UpdateWindowGeometry id0 g) ws).1).indications =
              ws.indications := by simp [client_update, hl]
          rw [hmods] at hsome
          rw [hg, hind]
          have h := hcov id hsome
          constructor
          · by_cases hi : id = id0
            · subst hi
              simp [lookupA_insertA_self]
            · rw [lookupA_insertA_ne _ _ _ _ hi]
              exact h.1
          · exact h.2
  | DeleteModule id0 =>
      cases hl : (lookupA ws.modules id0).isSome with
      | false => simpa [client_update, hl] using hcov
      | true =>
          intro id hsome
          have hmods : ((client_update create s q (.DeleteModule id0) ws).1).modules =
              removeA ws.modules id0 := by simp [client_update, hl]
          have hg : ((client_update create s q (.DeleteModule id0) ws).1).geometry =
              ws.geometry := by simp [client_update, hl]
          have hind : ((client_update create s q (.DeleteModule id0) ws).1).indications =
              ws.indications := by simp [client_update, hl]
          rw [hmods] at hsome
          rw [hg, hind]
          by_cases hi : id = id0
          · subst hi
            rw [lookupA_removeA_self] at hsome
            simp at hsome
          · rw [lookupA_removeA_ne _ _ _ hi] at hsome
            exact hcov id hsome
  | CreateConnection i o =>
      rcases hc : ws.connect i o with ⟨r, ws1⟩
      cases r with
      | error e =>
          have := connect_error_unchanged ws ws1 i o e hc
          subst this
          simpa [client_update, hc] using hcov
      | ok old =>
          obtain ⟨_, _, _, hws⟩ := connect_ok_inv ws ws1 i o old hc
          have hfst : (client_update create s q (.CreateConnection i o) ws).1 = ws1 := by
            simp [client_update, hc]
          rw [hfst, hws]
          exact hcov
  | DeleteConnection i =>
      cases hl : lookupA ws.connections i with
      | none => simpa [client_update, hl] using hcov
      | some o =>
          intro id hsome
          have hmods : ((client_update create s q (.DeleteConnection i) ws).1).modules =
              ws.modules := by simp [client_update, hl]
          have hg : ((client_update create s q (.DeleteConnection i) ws).1).geometry =
              ws.geometry := by simp [client_update, hl]
          have hind : ((client_update create s q (.DeleteConnection i) ws).1).indications =
              ws.indications := by simp [client_update, hl]
          rw [hmods] at hsome
          rw [hg, hind]
          exact hcov id hsome

theorem covered_apply_ops (create : Params → Module × Indic) (msgs : List ClientMessage)
    (ws : Workspace) (hcov : geometry_covered ws) :
    geometry_covered (apply_ops create msgs ws) := by
  induction msgs generalizing ws with
  | nil => exact hcov
  | cons msg rest ih =>
      exact ih _ (covered_client_update create msg.1 msg.2.1 msg.2.2 ws hcov)

/-- Counterexample for C8: starting from the empty workspace,
`CreateModule` (params 0, geometry 7) followed by `DeleteModule 1` removes
the module, yet its geometry entry `(1, 7)` and its indication entry
`(1, 0)` remain in the workspace, so the geometry key set is not equal to
the module key set and entries for the deleted id do remain. -/
theorem C8_coextensive_counterexample :
    (lookupA (apply_ops (fun p => (mMono, 0))
        [(1, 1, .CreateModule 0 7), (1, 2, .DeleteModule 1)] Workspace.new).modules 1
      = none)
    ∧ (lookupA (apply_ops (fun p => (mMono, 0))
        [(1, 1, .CreateModule 0 7), (1, 2, .DeleteModule 1)] Workspace.new).geometry 1
      = some 7)
    ∧ (lookupA (apply_ops (fun p => (mMono, 0))
        [(1, 1, .CreateModule 0 7), (1, 2, .DeleteModule 1)] Workspace.new).indications 1
      = some 0) := by
  exact ⟨rfl, rfl, rfl⟩

/-- C8 (amended): after any command sequence from the empty workspace,
every module in the module map has a geometry entry and an indication
entry (module keys are contained in the geometry and indication key sets);
the key sets need not be equal, because `DeleteModule` removes the module
and its connections but leaves its geometry and indication entries in
place. -/
theorem C8_geometry_covers_modules (create : Params → Module × Indic)
    (msgs : List ClientMessage) (id : ModuleId)
    (hsome : (lookupA (apply_ops create msgs Workspace.new).modules id).isSome) :
    (lookupA (apply_ops create msgs Workspace.new).geometry id).isSome
    ∧ (lookupA (apply_ops create msgs Workspace.new).indications id).isSome :=
  covered_apply_ops create msgs Workspace.new
    (by intro i h; simp [Workspace.new, lookupA] at h) id hsome

/-- Witness for C8: after a single `CreateModule`, module 1 exists and the
theorem yields its geometry and indication entries. -/
theorem C8_geometry_covers_modules_witness :
    ((lookupA (apply_ops (fun p => (mMono, 0))
        [(1, 1, .CreateModule 0 5)] Workspace.new).modules 1).isSome = true)
    ∧ ((lookupA (apply_ops (fun p => (mMono, 0))
        [(1, 1, .CreateModule 0 5)] Workspace.new).geometry 1).isSome
      ∧ (lookupA (apply_ops (fun p => (mMono, 0))
        [(1, 1, .CreateModule 0 5)] Workspace.new).indications 1).isSome) :=
  ⟨by decide,
   C8_geometry_covers_modules (fun p => (mMono, 0)) [(1, 1, .CreateModule 0 5)] 1 (by decide)⟩

/-! ## Claim C9: save/load round trip -/

section SaveLoadLemmas

variable {k v w : Type} [DecidableEq k]

theorem keysA_map_keyed (l : AList k v) (f : k → v → w) :
    keysA (l.map (fun p => (p.1, f p.1 p.2))) = keysA l := by
  induction l with
  | nil => rfl
  | cons p rest ih => simp [keysA]

theorem lookupA_map_keyed (l : AList k v) (f : k → v → w) (key : k) :
    lookupA (l.map (fun p => (p.1, f p.1 p.2))) key = (lookupA l key).map (f key) := by
  induction l with
  | nil => simp [lookupA]
  | cons p rest ih =>
      by_cases hp : p.1 = key
      · subst hp
        simp [lookupA, ih]
      · simp [lookupA, hp, ih]

theorem lookupA_nodup_mem (l : AList k v) (hnd : (keysA l).Nodup) (key : k) (val : v)
    (h : (key, val) ∈ l) : lookupA l key = some val := by
  induction l with
  | nil => simp at h
  | cons p rest ih =>
      simp only [keysA, List.map_cons, List.nodup_cons] at hnd
      rcases List.mem_cons.mp h with rfl | hmem
      · simp [lookupA]
      · have hne : p.1 ≠ key := by
          intro hc
          exact hnd.1 (hc ▸ (by simpa [keysA] using List.mem_map_of_mem Prod.fst hmem))
        rw [lookupA]
        simp only [hne, if_false]
        exact ih (by simpa [keysA] using hnd.2) hmem

theorem foldl_insertA_notin (f : k → v → w) (l : AList k v) (acc : AList k w) (key : k)
    (hk : key ∉ keysA l) :
    lookupA (l.foldl (fun acc2 p => insertA acc2 p.1 (f p.1 p.2)) acc) key =
      lookupA acc key := by
  induction l generalizing acc with
  | nil => rfl
  | cons p rest ih =>
      simp only [keysA, List.map_cons, List.mem_cons, not_or] at hk
      rw [List.foldl_cons, ih _ (by simpa [keysA] using hk.2)]
      exact lookupA_insertA_ne _ _ _ _ hk.1

theorem foldl_insertA_keyed (f : k → v → w) (l : AList k v) (acc : AList k w) (key : k)
    (hnd : (keysA l).Nodup) :
    lookupA (l.foldl (fun acc2 p => insertA acc2 p.1 (f p.1 p.2)) acc) key =
      if key ∈ keysA l then (lookupA l key).map (f key) else lookupA acc key := by
  induction l generalizing acc with
  | nil => simp [keysA]
  | cons p rest ih =>
      simp only [keysA, List.map_cons, List.nodup_cons] at hnd
      rw [List.foldl_cons, ih _ (by simpa [keysA] using hnd.2)]
      by_cases hk : key ∈ keysA rest
      · have hpk : p.1 ≠ key := by
          intro hc
          exact hnd.1 (hc ▸ hk)
        simp only [keysA] at hk
        simp [hk, keysA, lookupA, Ne.symm hpk, hpk]
      · by_cases hpk : p.1 = key
        · subst hpk
          simp only [keysA] at hk
          simp [hk, keysA, lookupA, lookupA_insertA_self]
        · simp only [keysA] at hk
          simp [hk, keysA, lookupA, hpk, Ne.symm hpk, lookupA_insertA_ne _ _ _ _ (Ne.symm hpk)]

end SaveLoadLemmas

/-- `Workspace::connect` leaves every field except the connection map
unchanged, whatever its result. -/
theorem connect_snd_fields (ws : Workspace) (i : InputId) (o : OutputId) :
    ((ws.connect i o).2).modules = ws.modules
    ∧ ((ws.connect i o).2).geometry = ws.geometry
    ∧ ((ws.connect i o).2).indications = ws.indications
    ∧ ((ws.connect i o).2).module_seq = ws.module_seq := by
  rcases hc : ws.connect i o with ⟨r, ws'⟩
  cases r with
  | error e =>
      have := connect_error_unchanged ws ws' i o e hc
      subst this
      exact ⟨rfl, rfl, rfl, rfl⟩
  | ok old =>
      obtain ⟨_, _, _, hws⟩ := connect_ok_inv ws ws' i o old hc
      subst hws
      exact ⟨rfl, rfl, rfl, rfl⟩

/-- `Workspace::connect` preserves referential integrity. -/
theorem connect_snd_ref_ok (ws : Workspace) (i : InputId) (o : OutputId)
    (h : ref_ok ws) : ref_ok (ws.connect i o).2 := by
  rcases hc : ws.connect i o with ⟨r, ws'⟩
  cases r with
  | error e =>
      have := connect_error_unchanged ws ws' i o e hc
      subst this
      exact h
  | ok old =>
      obtain ⟨hin, heq, _, hws⟩ := connect_ok_inv ws ws' i o old hc
      subst hws
      intro p hp
      rcases mem_insertA _ _ _ _ hp with hmem | hnew
      · exact h p hmem
      · subst hnew
        exact ⟨hin, heq⟩

theorem load_input_step_fields (id : ModuleId) (w : Workspace) (q : Nat × Option OutputId) :
    (load_input_step id w q).modules = w.modules
    ∧ (load_input_step id w q).geometry = w.geometry
    ∧ (load_input_step id w q).indications = w.indications
    ∧ (load_input_step id w q).module_seq = w.module_seq := by
  cases hq : q.2 with
  | none => simp [load_input_step, hq]
  | some o =>
      simp only [load_input_step, hq]
      exact connect_snd_fields w ⟨id, q.1⟩ o

theorem load_input_step_ref_ok (id : ModuleId) (w : Workspace) (q : Nat × Option OutputId)
    (h : ref_ok w) : ref_ok (load_input_step id w q) := by
  cases hq : q.2 with
  | none => simpa [load_input_step, hq] using h
  | some o =>
      simp only [load_input_step, hq]
      exact connect_snd_ref_ok w ⟨id, q.1⟩ o h

theorem load_module_conns_fields (w : Workspace) (p : ModuleId × SavedModule) :
    (load_module_conns w p).modules = w.modules
    ∧ (load_module_conns w p).geometry = w.geometry
    ∧ (load_module_conns w p).indications = w.indications
    ∧ (load_module_conns w p).module_seq = w.module_seq := by
  rw [load_module_conns]
  induction p.2.inputs.enum generalizing w with
  | nil => exact ⟨rfl, rfl, rfl, rfl⟩
  | cons q rest ih =>
      rw [List.foldl_cons]
      have h1 := load_input_step_fields p.1 w q
      have h2 := ih (load_input_step p.1 w q)
      exact ⟨h2.1.trans h1.1, h2.2.1.trans h1.2.1,
        h2.2.2.1.trans h1.2.2.1, h2.2.2.2.trans h1.2.2.2⟩

theorem load_module_conns_ref_ok (w : Workspace) (p : ModuleId × SavedModule)
    (h : ref_ok w) : ref_ok (load_module_conns w p) := by
  rw [load_module_conns]
  induction p.2.inputs.enum generalizing w with
  | nil => exact h
  | cons q rest ih =>
      rw [List.foldl_cons]
      exact ih _ (load_input_step_ref_ok p.1 w q h)

theorem load_connections_fields (s : SavedWorkspace) (w : Workspace) :
    (load_connections s w).modules = w.modules
    ∧ (load_connections s w).geometry = w.geometry
    ∧ (load_connections s w).indications = w.indications
    ∧ (load_connections s w).module_seq = w.module_seq := by
  rw [load_connections]
  induction s.modules generalizing w with
  | nil => exact ⟨rfl, rfl, rfl, rfl⟩
  | cons p rest ih =>
      rw [List.foldl_cons]
      have h1 := load_module_conns_fields w p
      have h2 := ih (load_module_conns w p)
      exact ⟨h2.1.trans h1.1, h2.2.1.trans h1.2.1,
        h2.2.2.1.trans h1.2.2.1, h2.2.2.2.trans h1.2.2.2⟩

theorem load_connections_ref_ok (s : SavedWorkspace) (w : Workspace)
    (h : ref_ok w) : ref_ok (load_connections s w) := by
  rw [load_connections]
  induction s.modules generalizing w with
  | nil => exact h
  | cons p rest ih =>
      rw [List.foldl_cons]
      exact ih _ (load_module_conns_ref_ok w p h)

/-- Loading any save file yields a workspace satisfying referential
integrity: a saved connection failing the typecheck on load is dropped
rather than inserted, and load never fails. -/
theorem load_ref_ok (create : Params → Module × Indic) (s : SavedWorkspace) :
    ref_ok (Workspace.load create s) := by
  apply load_connections_ref_ok
  intro p hp
  simp [load_ws0] at hp

theorem lookupA_append {k v : Type} [DecidableEq k] (l1 l2 : AList k v) (key : k) :
    lookupA (l1 ++ l2) key =
      match lookupA l1 key with
      | some val => some val
      | none => lookupA l2 key := by
  induction l1 with
  | nil => simp [lookupA]
  | cons p rest ih =>
      obtain ⟨a, b⟩ := p
      by_cases hp : a = key
      · simp [lookupA, hp]
      · simp only [List.cons_append, lookupA, hp, if_neg hp]
        exact ih

/-- Inner loop of the connection phase of `load`: the processed saved
inputs of module `id` end up looked up exactly as in the original
connection map, and keys not named by a processed `some` entry are left
untouched. -/
theorem inner_conn_spec (ws : Workspace) (href : ref_ok ws) (id : ModuleId) :
    ∀ ps : List (Nat × Option OutputId),
      (∀ q ∈ ps, q.2 = lookupA ws.connections ⟨id, q.1⟩) →
      ∀ w : Workspace, (∀ x, lookupA w.modules x = lookupA ws.modules x) →
        (∀ j : InputId, (∀ q ∈ ps, q.2.isSome → (⟨id, q.1⟩ : InputId) ≠ j) →
          lookupA (ps.foldl (load_input_step id) w).connections j = lookupA w.connections j)
        ∧ (∀ q ∈ ps, ∀ o : OutputId, q.2 = some o →
          lookupA (ps.foldl (load_input_step id) w).connections ⟨id, q.1⟩ = some o) := by
  intro ps
  induction ps with
  | nil =>
      intro _ w _
      exact ⟨fun j _ => rfl, fun q hq => absurd hq (List.not_mem_nil q)⟩
  | cons q0 rest ih =>
      intro hps w hm
      have hps0 := hps q0 (List.mem_cons_self _ _)
      have hpsrest : ∀ q ∈ rest, q.2 = lookupA ws.connections ⟨id, q.1⟩ :=
        fun q hq => hps q (List.mem_cons_of_mem _ hq)
      have hm1 : ∀ x, lookupA (load_input_step id w q0).modules x = lookupA ws.modules x := by
        intro x
        rw [(load_input_step_fields id w q0).1]
        exact hm x
      have hfold : (q0 :: rest).foldl (load_input_step id) w =
          rest.foldl (load_input_step id) (load_input_step id w q0) := rfl
      cases hq0 : q0.2 with
      | none =>
          have hw1 : load_input_step id w q0 = w := by simp [load_input_step, hq0]
          constructor
          · intro j hj
            rw [hfold, hw1]
            exact ((ih hpsrest w hm).1 j
              (fun q hq hs => hj q (List.mem_cons_of_mem _ hq) hs))
          · intro q hq o hqo
            rcases List.mem_cons.mp hq with rfl | hq'
            · rw [hq0] at hqo
              exact absurd hqo (by simp)
            · rw [hfold, hw1]
              exact (ih hpsrest w hm).2 q hq' o hqo
      | some o0 =>
          have hlk : lookupA ws.connections ⟨id, q0.1⟩ = some o0 := by
            rw [← hps0, hq0]
          have hmem := lookupA_mem _ _ _ hlk
          have hrefp := href _ hmem
          obtain ⟨t, ht⟩ := Option.isSome_iff_exists.mp hrefp.1
          have htout : ws.terminal_type (.output o0) = some t := by
            rw [← hrefp.2]
            exact ht
          have hw_in : w.terminal_type (.input ⟨id, q0.1⟩) = some t := by
            rw [terminal_type_congr ws w (.input ⟨id, q0.1⟩) (hm id)]
            exact ht
          have hw_out : w.terminal_type (.output o0) = some t := by
            rw [terminal_type_congr ws w (.output o0) (hm o0.module)]
            exact htout
          have hc := connect_ok w ⟨id, q0.1⟩ o0 t hw_in hw_out
          have hw1conns : (load_input_step id w q0).connections =
              insertA w.connections ⟨id, q0.1⟩ o0 := by
            simp [load_input_step, hq0, hc]
          constructor
          · intro j hj
            have hne : (⟨id, q0.1⟩ : InputId) ≠ j :=
              hj q0 (List.mem_cons_self _ _) (by simp [hq0])
            rw [hfold,
              (ih hpsrest _ hm1).1 j (fun q hq hs => hj q (List.mem_cons_of_mem _ hq) hs),
              hw1conns]
            exact lookupA_insertA_ne _ _ _ _ (Ne.symm hne)
          · intro q hq o hqo
            rcases List.mem_cons.mp hq with rfl | hq'
            · have ho : o = o0 := by
                rw [hq0] at hqo
                exact (Option.some.inj hqo).symm
              subst ho
              by_cases hrest : ∃ q' ∈ rest, (⟨id, q'.1⟩ : InputId) = ⟨id, q.1⟩ ∧ q'.2.isSome
              · obtain ⟨q', hq'mem, hkey, hsome'⟩ := hrest
                obtain ⟨o', ho'⟩ := Option.isSome_iff_exists.mp hsome'
                have hidx : q'.1 = q.1 := congrArg InputId.index hkey
                have ho'' : o' = o := by
                  have := hpsrest q' hq'mem
                  rw [ho', hidx] at this
                  rw [← hps0, hq0] at this
                  exact Option.some.inj this
                subst ho''
                rw [hfold, ← hkey]
                exact (ih hpsrest _ hm1).2 q' hq'mem o' ho'
              · rw [hfold,
                  (ih hpsrest _ hm1).1 ⟨id, q.1⟩ (fun q' hq' hs => by
                    intro hcontra
                    exact hrest ⟨q', hq', hcontra, hs⟩),
                  hw1conns]
                exact lookupA_insertA_self _ _ _
            · rw [hfold]
              exact (ih hpsrest _ hm1).2 q hq' o hqo

/-- The saved record `Workspace::save` produces for one module. -/
def saved_of (ws : Workspace) (id : ModuleId) (m : Module) : SavedModule :=
  { params := m.params
    geometry := (lookupA ws.geometry id).getD 0
    inputs := (List.range m.inputs.length).map (fun idx => lookupA ws.connections ⟨id, idx⟩) }

theorem save_modules_eq (ws : Workspace) :
    ws.save.modules = ws.modules.map (fun p => (p.1, saved_of ws p.1 p.2)) := rfl

theorem saved_inputs_enum_mem (ws : Workspace) (id : ModuleId) (m : Module) :
    ∀ q ∈ (saved_of ws id m).inputs.enum, q.2 = lookupA ws.connections ⟨id, q.1⟩ := by
  intro q hq
  rw [List.mem_enum_iff_getElem?] at hq
  simp only [saved_of, List.getElem?_map] at hq
  by_cases hlt : q.1 < m.inputs.length
  · rw [List.getElem?_range hlt] at hq
    simpa using hq.symm
  · rw [List.getElem?_eq_none (by simpa using Nat.le_of_not_lt hlt)] at hq
    simp at hq

theorem saved_inputs_enum_mem_of_lt (ws : Workspace) (id : ModuleId) (m : Module)
    (idx : Nat) (h : idx < m.inputs.length) :
    ((idx, lookupA ws.connections ⟨id, idx⟩) : Nat × Option OutputId) ∈
      (saved_of ws id m).inputs.enum := by
  rw [List.mem_enum_iff_getElem?]
  simp [saved_of, List.getElem?_map, List.getElem?_range h]

theorem terminal_input_isSome_iff (ws : Workspace) (j : InputId) (m : Module)
    (hm : lookupA ws.modules j.module = some m) :
    (ws.terminal_type (.input j)).isSome ↔ j.index < m.inputs.length := by
  simp only [Workspace.terminal_type, hm, Option.some_bind]
  rw [Option.isSome_iff_exists]
  constructor
  · rintro ⟨a, ha⟩
    exact (List.getElem?_eq_some.mp ha).1
  · intro h
    exact ⟨m.inputs[j.index], List.getElem?_eq_getElem h⟩

theorem terminal_input_module_isSome (ws : Workspace) (j : InputId)
    (h : (ws.terminal_type (.input j)).isSome) :
    (lookupA ws.modules j.module).isSome := by
  cases hm : lookupA ws.modules j.module with
  | none => simp [Workspace.terminal_type, hm] at h
  | some m => rfl

/-- Outer loop of the connection phase of `load`: after processing a
suffix of the saved modules, connections of processed modules agree with
the original connection map, unprocessed ones are absent. -/
theorem outer_conn_spec (ws : Workspace)
    (hnd : (keysA ws.modules).Nodup) (href : ref_ok ws) :
    ∀ (todo done : List (ModuleId × Module)), ws.modules = done ++ todo →
      ∀ w : Workspace, (∀ x, lookupA w.modules x = lookupA ws.modules x) →
        (∀ j : InputId, (lookupA done j.module).isSome →
          lookupA w.connections j = lookupA ws.connections j) →
        (∀ j : InputId, lookupA done j.module = none → lookupA w.connections j = none) →
        (∀ j : InputId, (lookupA ws.modules j.module).isSome →
          lookupA ((todo.map (fun p => (p.1, saved_of ws p.1 p.2))).foldl
            load_module_conns w).connections j = lookupA ws.connections j)
        ∧ (∀ j : InputId, lookupA ws.modules j.module = none →
          lookupA ((todo.map (fun p => (p.1, saved_of ws p.1 p.2))).foldl
            load_module_conns w).connections j = none) := by
  intro todo
  induction todo with
  | nil =>
      intro done hsplit w hm inv1 inv2
      rw [List.append_nil] at hsplit
      constructor
      · intro j hj
        rw [hsplit] at hj
        exact inv1 j hj
      · intro j hj
        rw [hsplit] at hj
        exact inv2 j hj
  | cons pm rest ih =>
      obtain ⟨id0, m0⟩ := pm
      intro done hsplit w hm inv1 inv2
      have hndsplit : (keysA done ++ id0 :: keysA rest).Nodup := by
        have := hnd
        rw [hsplit] at this
        simpa [keysA] using this
      rw [List.nodup_append] at hndsplit
      have hid0done : id0 ∉ keysA done := by
        intro hc
        exact hndsplit.2.2 hc (List.mem_cons_self _ _)
      have hm0 : lookupA ws.modules id0 = some m0 :=
        lookupA_nodup_mem _ hnd _ _
          (by rw [hsplit]; exact List.mem_append_right _ (List.mem_cons_self _ _))
      have hinner := inner_conn_spec ws href id0 (saved_of ws id0 m0).inputs.enum
        (saved_inputs_enum_mem ws id0 m0) w hm
      have hw1conns_def : (load_module_conns w (id0, saved_of ws id0 m0)).connections =
          ((saved_of ws id0 m0).inputs.enum.foldl (load_input_step id0) w).connections := rfl
      have hm1 : ∀ x, lookupA (load_module_conns w (id0, saved_of ws id0 m0)).modules x =
          lookupA ws.modules x := by
        intro x
        rw [(load_module_conns_fields w _).1]
        exact hm x
      have inv1' : ∀ j : InputId, (lookupA (done ++ [(id0, m0)]) j.module).isSome →
          lookupA (load_module_conns w (id0, saved_of ws id0 m0)).connections j =
            lookupA ws.connections j := by
        intro j hj
        rw [lookupA_append] at hj
        cases hdone : lookupA done j.module with
        | some v =>
            have hjne : j.module ≠ id0 := by
              intro hc
              apply hid0done
              rw [← hc]
              exact (lookupA_isSome_iff _ _).mp (by simp [hdone])
            have huntouched := hinner.1 j (fun q hq hs hcontra =>
              hjne ((congrArg InputId.module hcontra).symm))
            rw [hw1conns_def, huntouched]
            exact inv1 j (by simp [hdone])
        | none =>
            rw [hdone] at hj
            have hjid : j.module = id0 := by
              by_cases hc : id0 = j.module
              · exact hc.symm
              · simp [lookupA, hc] at hj
            have hjeta : j = ⟨id0, j.index⟩ := by
              rw [← hjid]
            cases hcj : lookupA ws.connections j with
            | some o =>
                have hmemc := lookupA_mem _ _ _ hcj
                have hrefp := href _ hmemc
                have hidx : j.index < m0.inputs.length := by
                  rw [← terminal_input_isSome_iff ws j m0 (by rw [hjid]; exact hm0)]
                  exact hrefp.1
                have henum := saved_inputs_enum_mem_of_lt ws id0 m0 j.index hidx
                have hval : lookupA ws.connections ⟨id0, j.index⟩ = some o := by
                  rw [← hjeta]
                  exact hcj
                have hproc := hinner.2 (j.index, lookupA ws.connections ⟨id0, j.index⟩)
                  henum o hval
                rw [hw1conns_def, hjeta]
                exact hproc
            | none =>
                have huntouched := hinner.1 j (fun q hq hs hcontra => by
                  have hq2 := saved_inputs_enum_mem ws id0 m0 q hq
                  rw [hcontra, hcj] at hq2
                  rw [hq2] at hs
                  simp at hs)
                rw [hw1conns_def, huntouched]
                exact inv2 j hdone
      have inv2' : ∀ j : InputId, lookupA (done ++ [(id0, m0)]) j.module = none →
          lookupA (load_module_conns w (id0, saved_of ws id0 m0)).connections j = none := by
        intro j hj
        rw [lookupA_append] at hj
        cases hdone : lookupA done j.module with
        | some v => rw [hdone] at hj; simp at hj
        | none =>
            rw [hdone] at hj
            have hjne : j.module ≠ id0 := by
              intro hc
              rw [← hc] at hj
              simp [lookupA] at hj
            have huntouched := hinner.1 j (fun q hq hs hcontra =>
              hjne ((congrArg InputId.module hcontra).symm))
            rw [hw1conns_def, huntouched]
            exact inv2 j hdone
      have hsplit' : ws.modules = (done ++ [(id0, m0)]) ++ rest := by
        rw [hsplit, List.append_assoc, List.singleton_append]
      exact ih (done ++ [(id0, m0)]) hsplit'
        (load_module_conns w (id0, saved_of ws id0 m0)) hm1 inv1' inv2'

theorem load_ws0_modules_lookup (create : Params → Module × Indic) (ws : Workspace)
    (hnd : (keysA ws.modules).Nodup)
    (hstable : ∀ p ∈ ws.modules, (create p.2.params).1 = p.2) (id : ModuleId) :
    lookupA (load_ws0 create ws.save).modules id = lookupA ws.modules id := by
  have hnd' : (keysA ws.save.modules).Nodup := by
    rw [save_modules_eq, keysA_map_keyed]
    exact hnd
  have h2 : lookupA (ws.save.modules.foldl
        (fun acc p => insertA acc p.1 (create p.2.params).1) []) id =
      if id ∈ keysA ws.save.modules
        then (lookupA ws.save.modules id).map (fun sp => (create sp.params).1)
        else lookupA ([] : AList ModuleId Module) id :=
    foldl_insertA_keyed (fun _ sp => (create sp.params).1) ws.save.modules [] id hnd'
  show lookupA (ws.save.modules.foldl
      (fun acc p => insertA acc p.1 (create p.2.params).1) []) id = lookupA ws.modules id
  rw [h2, save_modules_eq, keysA_map_keyed, lookupA_map_keyed]
  by_cases hid : id ∈ keysA ws.modules
  · simp only [hid, if_true]
    cases hml : lookupA ws.modules id with
    | none => simp
    | some m =>
        have hmem := lookupA_mem _ _ _ hml
        simp [saved_of, hstable (id, m) hmem]
  · simp only [hid, if_false]
    rw [lookupA_eq_none_of_not_mem _ _ hid]
    rfl

theorem load_modules_lookup (create : Params → Module × Indic) (ws : Workspace)
    (hnd : (keysA ws.modules).Nodup)
    (hstable : ∀ p ∈ ws.modules, (create p.2.params).1 = p.2) (id : ModuleId) :
    lookupA (Workspace.load create ws.save).modules id = lookupA ws.modules id := by
  show lookupA (load_connections ws.save (load_ws0 create ws.save)).modules id =
    lookupA ws.modules id
  rw [(load_connections_fields ws.save (load_ws0 create ws.save)).1]
  exact load_ws0_modules_lookup create ws hnd hstable id

theorem load_geometry_lookup (create : Params → Module × Indic) (ws : Workspace)
    (hnd : (keysA ws.modules).Nodup) (id : ModuleId) (g : WindowGeometry)
    (hmod : (lookupA ws.modules id).isSome) (hg : lookupA ws.geometry id = some g) :
    lookupA (Workspace.load create ws.save).geometry id = some g := by
  have hnd' : (keysA ws.save.modules).Nodup := by
    rw [save_modules_eq, keysA_map_keyed]
    exact hnd
  have h2 : lookupA (ws.save.modules.foldl
        (fun acc p => insertA acc p.1 p.2.geometry) []) id =
      if id ∈ keysA ws.save.modules
        then (lookupA ws.save.modules id).map (fun sp => sp.geometry)
        else lookupA ([] : AList ModuleId WindowGeometry) id :=
    foldl_insertA_keyed (fun _ sp => sp.geometry) ws.save.modules [] id hnd'
  show lookupA (load_connections ws.save (load_ws0 create ws.save)).geometry id = some g
  rw [(load_connections_fields ws.save (load_ws0 create ws.save)).2.1]
  show lookupA (ws.save.modules.foldl
      (fun acc p => insertA acc p.1 p.2.geometry) []) id = some g
  rw [h2, save_modules_eq, keysA_map_keyed, lookupA_map_keyed]
  obtain ⟨m, hml⟩ := Option.isSome_iff_exists.mp hmod
  have hid : id ∈ keysA ws.modules := (lookupA_isSome_iff _ _).mp (by simp [hml])
  simp [hid, hml, saved_of, hg]

theorem load_seq_eq (create : Params → Module × Indic) (ws : Workspace) :
    (Workspace.load create ws.save).module_seq = ws.module_seq := by
  show (load_connections ws.save (load_ws0 create ws.save)).module_seq = ws.module_seq
  rw [(load_connections_fields ws.save (load_ws0 create ws.save)).2.2.2]
  rfl

theorem load_conns_lookup (create : Params → Module × Indic) (ws : Workspace)
    (hnd : (keysA ws.modules).Nodup) (href : ref_ok ws)
    (hstable : ∀ p ∈ ws.modules, (create p.2.params).1 = p.2) (j : InputId) :
    lookupA (Workspace.load create ws.save).connections j = lookupA ws.connections j := by
  have hm0 : ∀ x, lookupA (load_ws0 create ws.save).modules x = lookupA ws.modules x :=
    load_ws0_modules_lookup create ws hnd hstable
  have houter := outer_conn_spec ws hnd href ws.modules [] (List.nil_append _).symm
    (load_ws0 create ws.save) hm0
    (fun j2 hj2 => by simp [lookupA] at hj2)
    (fun j2 _ => rfl)
  have hconn_eq : (Workspace.load create ws.save).connections =
      ((ws.modules.map (fun p => (p.1, saved_of ws p.1 p.2))).foldl
        load_module_conns (load_ws0 create ws.save)).connections := by
    rw [← save_modules_eq]
    rfl
  cases hmod : lookupA ws.modules j.module with
  | some m =>
      rw [hconn_eq]
      exact houter.1 j (by simp [hmod])
  | none =>
      have hload : lookupA (Workspace.load create ws.save).connections j = none := by
        rw [hconn_eq]
        exact houter.2 j hmod
      rw [hload]
      cases hcj : lookupA ws.connections j with
      | none => rfl
      | some o =>
          have hmem := lookupA_mem _ _ _ hcj
          have h1 := terminal_input_module_isSome ws j (href _ hmem).1
          rw [hmod] at h1
          simp at h1

/-- C9: for every workspace satisfying referential integrity and whose
module params are stable under re-creation (`Module::create` of a module's
params rebuilds an equal module, in particular with equal terminal lists),
`Workspace::load(ws.save())` reproduces the module id sequence, the module
map (ids and params), the geometry of every module that has one, and the
connection map (all compared by lookup); moreover loading any save file
yields a workspace satisfying referential integrity — a saved connection
that fails the typecheck on load is silently dropped, and load never
fails. -/
theorem C9_save_load_roundtrip (create : Params → Module × Indic) (ws : Workspace)
    (hnd : (keysA ws.modules).Nodup) (href : ref_ok ws)
    (hstable : ∀ p ∈ ws.modules, (create p.2.params).1 = p.2) :
    (Workspace.load create ws.save).module_seq = ws.module_seq
    ∧ (∀ id, lookupA (Workspace.load create ws.save).modules id = lookupA ws.modules id)
    ∧ (∀ id g, (lookupA ws.modules id).isSome → lookupA ws.geometry id = some g →
        lookupA (Workspace.load create ws.save).geometry id = some g)
    ∧ (∀ j, lookupA (Workspace.load create ws.save).connections j =
        lookupA ws.connections j)
    ∧ (∀ s : SavedWorkspace, ref_ok (Workspace.load create s)) :=
  ⟨load_seq_eq create ws,
   load_modules_lookup create ws hnd hstable,
   fun id g hmod hg => load_geometry_lookup create ws hnd id g hmod hg,
   load_conns_lookup create ws hnd href hstable,
   load_ref_ok create⟩

/-- Witness for C9: the two-module workspace `wsB` with its one connection
round-trips through save/load (checked here at the connection key 1.0, the
module key 1 and the id sequence). -/
theorem C9_save_load_roundtrip_witness :
    ((keysA wsB.modules).Nodup
      ∧ ref_ok wsB
      ∧ ∀ p ∈ wsB.modules, ((fun p2 => (⟨p2, [.mono], [.mono]⟩, 0) :
          Params → Module × Indic) p.2.params).1 = p.2)
    ∧ (Workspace.load (fun p2 => (⟨p2, [.mono], [.mono]⟩, 0)) wsB.save).module_seq =
        wsB.module_seq
    ∧ lookupA (Workspace.load (fun p2 => (⟨p2, [.mono], [.mono]⟩, 0))
        wsB.save).connections ⟨1, 0⟩ = lookupA wsB.connections ⟨1, 0⟩
    ∧ lookupA (Workspace.load (fun p2 => (⟨p2, [.mono], [.mono]⟩, 0))
        wsB.save).modules 1 = lookupA wsB.modules 1 := by
  refine ⟨⟨by decide, by decide, by decide⟩, ?_, ?_, ?_⟩
  · exact (C9_save_load_roundtrip _ wsB (by decide) (by decide) (by decide)).1
  · exact (C9_save_load_roundtrip _ wsB (by decide) (by decide) (by decide)).2.2.2.1 ⟨1, 0⟩
  · exact (C9_save_load_roundtrip _ wsB (by decide) (by decide) (by decide)).2.1 1

/-! ## Claims C1, C3, C4: the per-tick scheduler -/

section SchedulerProofs

variable (modules : AList ModuleId Module) (connections : AList InputId OutputId)

/-- One dependency edge of the per-tick DFS: module `m` has a connected
input (at an in-range index) whose source output belongs to module `n`,
so `traverse` recurses from `m` into `n`. -/
def dep_edge (m n : ModuleId) : Prop :=
  ∃ md, lookupA modules m = some md
    ∧ ∃ i, i < md.inputs.length
    ∧ ∃ o : OutputId, lookupA connections ⟨m, i⟩ = some o ∧ o.module = n

/-- The workspace graph is acyclic: no module transitively depends on
itself. -/
def acyclic : Prop :=
  ∀ m, ¬ Relation.TransGen (dep_edge modules connections) m m

/-- A module reachable from the terminal set along dependency edges. -/
def sched_reachable (x : ModuleId) : Prop :=
  ∃ t ∈ terminal_ids modules connections,
    Relation.ReflTransGen (dep_edge modules connections) t x

/-- The number of module-map keys not yet visited. -/
def unseen (seen : List ModuleId) : Nat :=
  ((keysA modules).filter (fun x => decide (x ∉ seen))).length

end SchedulerProofs

theorem length_filter_le_of_imp {α : Type} (l : List α) (p q : α → Bool)
    (h : ∀ a, p a = true → q a = true) :
    (l.filter p).length ≤ (l.filter q).length := by
  induction l with
  | nil => exact Nat.le_refl _
  | cons a rest ih =>
      rw [List.filter_cons, List.filter_cons]
      cases hp : p a with
      | false =>
          cases hq : q a with
          | false => simpa using ih
          | true => simp only [if_true]; exact Nat.le_succ_of_le ih
      | true =>
          rw [h a hp]
          simpa using ih

theorem length_filter_lt_of_mem {α : Type} [DecidableEq α] (l : List α) (p q : α → Bool)
    (h : ∀ a, p a = true → q a = true) (x : α) (hx : x ∈ l) (hnd : l.Nodup)
    (hpx : p x = false) (hqx : q x = true) :
    (l.filter p).length < (l.filter q).length := by
  induction l with
  | nil => simp at hx
  | cons a rest ih =>
      rw [List.nodup_cons] at hnd
      rw [List.filter_cons, List.filter_cons]
      rcases List.mem_cons.mp hx with rfl | hmem
      · simp only [hpx, hqx, Bool.false_eq_true, if_false, if_true, List.length_cons]
        exact Nat.lt_succ_of_le (length_filter_le_of_imp rest p q h)
      · have hlt := ih hmem hnd.2
        cases hp : p a with
        | false =>
            cases hq : q a with
            | false => simpa [hp, hq] using hlt
            | true =>
                simp only [Bool.false_eq_true, if_false, if_true, List.length_cons]
                omega
        | true =>
            have hqa := h a hp
            simp only [hqa, if_true, List.length_cons]
            omega

theorem unseen_le_of_subset (modules : AList ModuleId Module)
    (s1 s2 : List ModuleId) (h : ∀ x ∈ s1, x ∈ s2) :
    unseen modules s2 ≤ unseen modules s1 := by
  apply length_filter_le_of_imp
  intro a ha
  simp only [decide_eq_true_eq] at ha ⊢
  intro hmem
  exact ha (h a hmem)

theorem unseen_insert_lt (modules : AList ModuleId Module)
    (hnd : (keysA modules).Nodup) (seen : List ModuleId) (m : ModuleId)
    (hmem : m ∈ keysA modules) (hns : m ∉ seen) :
    unseen modules (m :: seen) < unseen modules seen := by
  refine length_filter_lt_of_mem (keysA modules) _ _ ?_ m hmem hnd ?_ ?_
  · intro a ha
    simp only [decide_eq_true_eq, List.mem_cons, not_or] at ha ⊢
    exact ha.2
  · simp
  · simpa using hns

theorem unseen_le_card (modules : AList ModuleId Module) (seen : List ModuleId) :
    unseen modules seen ≤ modules.length := by
  calc ((keysA modules).filter _).length
      ≤ (keysA modules).length := List.length_filter_le _ _
    _ = modules.length := by simp [keysA]

theorem indexOf_append_self {α : Type} [DecidableEq α] (l : List α) (m : α)
    (h : m ∉ l) : (l ++ [m]).indexOf m = l.length := by
  induction l with
  | nil => simp [List.indexOf_cons_self]
  | cons a rest ih =>
      simp only [List.mem_cons, not_or] at h
      rw [List.cons_append, List.indexOf_cons_ne _ (Ne.symm h.1), ih h.2, List.length_cons]

theorem nodup_append_singleton {α : Type} (l : List α) (m : α)
    (hnd : l.Nodup) (h : m ∉ l) : (l ++ [m]).Nodup := by
  rw [List.nodup_append]
  exact ⟨hnd, List.nodup_singleton m, by
    intro a ha hb
    rw [List.mem_singleton] at hb
    subst hb
    exact h ha⟩

theorem terminal_ids_subset_keys (modules : AList ModuleId Module)
    (connections : AList InputId OutputId) :
    ∀ t ∈ terminal_ids modules connections, t ∈ keysA modules := by
  intro t ht
  exact List.mem_of_mem_filter ht

section SchedulerMaster

variable (modules : AList ModuleId Module) (connections : AList InputId OutputId)

theorem traverse_succ_seen (fuel : Nat) (m : ModuleId) (st : Topsort)
    (h : m ∈ st.seen) :
    traverse modules connections (fuel + 1) m st = st := by
  rw [traverse]
  simp [h]

theorem traverse_succ_none (fuel : Nat) (m : ModuleId) (st : Topsort)
    (h : m ∉ st.seen) (hl : lookupA modules m = none) :
    traverse modules connections (fuel + 1) m st = ⟨st.run_order, m :: st.seen⟩ := by
  rw [traverse]
  simp [h, hl]

theorem traverse_succ_some (fuel : Nat) (m : ModuleId) (st : Topsort) (md : Module)
    (h : m ∉ st.seen) (hl : lookupA modules m = some md) :
    traverse modules connections (fuel + 1) m st =
      ⟨(traverse_inputs modules connections fuel (List.range md.inputs.length) m
          ⟨st.run_order, m :: st.seen⟩).run_order ++ [m],
       (traverse_inputs modules connections fuel (List.range md.inputs.length) m
          ⟨st.run_order, m :: st.seen⟩).seen⟩ := by
  rw [traverse]
  simp [h, hl]

theorem traverse_inputs_nil (fuel : Nat) (m : ModuleId) (st : Topsort) :
    traverse_inputs modules connections fuel [] m st = st := by
  rw [traverse_inputs]

theorem traverse_inputs_cons_none (fuel : Nat) (i : Nat) (rest : List Nat)
    (m : ModuleId) (st : Topsort) (hl : lookupA connections ⟨m, i⟩ = none) :
    traverse_inputs modules connections fuel (i :: rest) m st =
      traverse_inputs modules connections fuel rest m st := by
  rw [traverse_inputs]
  simp [hl]

theorem traverse_inputs_cons_some (fuel : Nat) (i : Nat) (rest : List Nat)
    (m : ModuleId) (st : Topsort) (o : OutputId)
    (hl : lookupA connections ⟨m, i⟩ = some o) :
    traverse_inputs modules connections fuel (i :: rest) m st =
      traverse_inputs modules connections fuel rest m
        (traverse modules connections fuel o.module st) := by
  rw [traverse_inputs]
  simp [hl]

/-- The invariant carried through the DFS of `run_tick`. `gray` is the set
of modules whose `traverse` call is on the stack (marked seen but not yet
pushed to the run order); the acyclicity-dependent fields are guarded so
the invariant also serves in cyclic workspaces. -/
structure SchedInv (gray : List ModuleId) (st : Topsort) : Prop where
  ro_seen : ∀ x ∈ st.run_order, x ∈ st.seen
  gray_seen : ∀ g ∈ gray, g ∈ st.seen
  seen_keys : ∀ x ∈ st.seen, x ∈ keysA modules → x ∈ st.run_order ∨ x ∈ gray
  ro_nodup : st.run_order.Nodup
  ro_gray : ∀ x ∈ st.run_order, x ∉ gray
  ro_closed : ∀ x ∈ st.run_order, ∀ n, dep_edge modules connections x n → n ∈ st.seen
  ordered : acyclic modules connections →
    ∀ x n, dep_edge modules connections x n → x ∈ st.run_order → n ∈ st.run_order →
      st.run_order.indexOf n < st.run_order.indexOf x
  gray_free : acyclic modules connections →
    ∀ x ∈ st.run_order, ∀ g ∈ gray, ¬ dep_edge modules connections x g

/-- Marking an unseen module gray preserves the invariant. -/
theorem schedinv_insert (gray : List ModuleId) (st : Topsort) (m : ModuleId)
    (hinv : SchedInv modules connections gray st) (hm : m ∉ st.seen) :
    SchedInv modules connections (m :: gray) ⟨st.run_order, m :: st.seen⟩ where
  ro_seen := fun x hx => List.mem_cons_of_mem _ (hinv.ro_seen x hx)
  gray_seen := fun g hg => by
    rcases List.mem_cons.mp hg with rfl | hg'
    · exact List.mem_cons_self _ _
    · exact List.mem_cons_of_mem _ (hinv.gray_seen g hg')
  seen_keys := fun x hx hk => by
    rcases List.mem_cons.mp hx with rfl | hx'
    · exact Or.inr (List.mem_cons_self _ _)
    · rcases hinv.seen_keys x hx' hk with h | h
      · exact Or.inl h
      · exact Or.inr (List.mem_cons_of_mem _ h)
  ro_nodup := hinv.ro_nodup
  ro_gray := fun x hx => by
    intro hmem
    rcases List.mem_cons.mp hmem with rfl | hg
    · exact hm (hinv.ro_seen x hx)
    · exact hinv.ro_gray x hx hg
  ro_closed := fun x hx n hdep => List.mem_cons_of_mem _ (hinv.ro_closed x hx n hdep)
  ordered := hinv.ordered
  gray_free := fun hacyc x hx g hg => by
    rcases List.mem_cons.mp hg with rfl | hg'
    · intro hdep
      exact hm (hinv.ro_closed x hx g hdep)
    · exact hinv.gray_free hacyc x hx g hg'

/-- Marking an unseen id that is not a module key preserves the invariant
with the same gray set (the Rust code would panic here; the model marks it
seen and stops). -/
theorem schedinv_insert_nokey (gray : List ModuleId) (st : Topsort) (m : ModuleId)
    (hinv : SchedInv modules connections gray st) (hkey : m ∉ keysA modules) :
    SchedInv modules connections gray ⟨st.run_order, m :: st.seen⟩ where
  ro_seen := fun x hx => List.mem_cons_of_mem _ (hinv.ro_seen x hx)
  gray_seen := fun g hg => List.mem_cons_of_mem _ (hinv.gray_seen g hg)
  seen_keys := fun x hx hk => by
    rcases List.mem_cons.mp hx with rfl | hx'
    · exact absurd hk hkey
    · exact hinv.seen_keys x hx' hk
  ro_nodup := hinv.ro_nodup
  ro_gray := hinv.ro_gray
  ro_closed := fun x hx n hdep => List.mem_cons_of_mem _ (hinv.ro_closed x hx n hdep)
  ordered := hinv.ordered
  gray_free := hinv.gray_free

/-- Appending the finished module `m` to the run order restores the
invariant with `m` removed from the gray set. -/
theorem schedinv_push (gray : List ModuleId) (st2 : Topsort) (m : ModuleId)
    (hinv2 : SchedInv modules connections (m :: gray) st2)
    (hm_seen : m ∈ st2.seen)
    (hmgray : m ∉ gray)
    (htargets : ∀ n, dep_edge modules connections m n → n ∈ st2.seen)
    (hchain : ∀ g ∈ gray, Relation.TransGen (dep_edge modules connections) g m) :
    SchedInv modules connections gray ⟨st2.run_order ++ [m], st2.seen⟩ := by
  have hm_not_ro : m ∉ st2.run_order := by
    intro hc
    exact hinv2.ro_gray m hc (List.mem_cons_self _ _)
  refine ⟨?_, ?_, ?_, ?_, ?_, ?_, ?_, ?_⟩
  · intro x hx
    rcases List.mem_append.mp hx with hx' | hx'
    · exact hinv2.ro_seen x hx'
    · rw [List.mem_singleton] at hx'
      subst hx'
      exact hm_seen
  · intro g hg
    exact hinv2.gray_seen g (List.mem_cons_of_mem _ hg)
  · intro x hx hk
    rcases hinv2.seen_keys x hx hk with h | h
    · exact Or.inl (List.mem_append_left _ h)
    · rcases List.mem_cons.mp h with rfl | h'
      · exact Or.inl (List.mem_append_right _ (List.mem_singleton_self _))
      · exact Or.inr h'
  · exact nodup_append_singleton _ _ hinv2.ro_nodup hm_not_ro
  · intro x hx
    rcases List.mem_append.mp hx with hx' | hx'
    · intro hg
      exact hinv2.ro_gray x hx' (List.mem_cons_of_mem _ hg)
    · rw [List.mem_singleton] at hx'
      subst hx'
      exact hmgray
  · intro x hx n hdep
    rcases List.mem_append.mp hx with hx' | hx'
    · exact hinv2.ro_closed x hx' n hdep
    · rw [List.mem_singleton] at hx'
      subst hx'
      exact htargets n hdep
  · intro hacyc x n hdep hx hn
    rcases List.mem_append.mp hx with hx' | hx'
    · rcases List.mem_append.mp hn with hn' | hn'
      · rw [List.indexOf_append_of_mem hn', List.indexOf_append_of_mem hx']
        exact hinv2.ordered hacyc x n hdep hx' hn'
      · rw [List.mem_singleton] at hn'
        subst hn'
        exact absurd hdep (hinv2.gray_free hacyc x hx' n (List.mem_cons_self _ _))
    · rw [List.mem_singleton] at hx'
      subst hx'
      rcases List.mem_append.mp hn with hn' | hn'
      · rw [List.indexOf_append_of_mem hn', indexOf_append_self _ _ hm_not_ro]
        exact List.indexOf_lt_length.mpr hn'
      · rw [List.mem_singleton] at hn'
        subst hn'
        exact absurd (Relation.TransGen.single hdep) (hacyc _)
  · intro hacyc x hx g hg
    rcases List.mem_append.mp hx with hx' | hx'
    · exact hinv2.gray_free hacyc x hx' g (List.mem_cons_of_mem _ hg)
    · rw [List.mem_singleton] at hx'
      subst hx'
      intro hdep
      exact hacyc g ((hchain g hg).trans (Relation.TransGen.single hdep))

/-- Master specification of the bounded DFS: with enough fuel, `traverse`
preserves the scheduler invariant, marks its argument seen, only appends
to the run order, and appends only modules reachable from its argument;
`traverse_inputs` additionally puts every connected input source of the
current module into the seen set. -/
theorem traverse_master (hnd : (keysA modules).Nodup) : ∀ fuel : Nat,
    (∀ (m : ModuleId) (st : Topsort) (gray : List ModuleId),
      SchedInv modules connections gray st →
      unseen modules st.seen < fuel →
      (∀ g ∈ gray, Relation.TransGen (dep_edge modules connections) g m) →
      (∀ x ∈ st.seen, x ∈ (traverse modules connections fuel m st).seen)
      ∧ m ∈ (traverse modules connections fuel m st).seen
      ∧ (∃ new, (traverse modules connections fuel m st).run_order = st.run_order ++ new)
      ∧ SchedInv modules connections gray (traverse modules connections fuel m st)
      ∧ (∀ x ∈ (traverse modules connections fuel m st).run_order,
          x ∈ st.run_order ∨ Relation.ReflTransGen (dep_edge modules connections) m x))
    ∧ (∀ (l : List Nat) (m : ModuleId) (st : Topsort) (gray : List ModuleId),
      SchedInv modules connections (m :: gray) st →
      unseen modules st.seen < fuel →
      (∀ g ∈ gray, Relation.TransGen (dep_edge modules connections) g m) →
      (∀ i ∈ l, ∀ o : OutputId, lookupA connections ⟨m, i⟩ = some o →
        dep_edge modules connections m o.module) →
      (∀ x ∈ st.seen, x ∈ (traverse_inputs modules connections fuel l m st).seen)
      ∧ (∀ i ∈ l, ∀ o : OutputId, lookupA connections ⟨m, i⟩ = some o →
          o.module ∈ (traverse_inputs modules connections fuel l m st).seen)
      ∧ (∃ new, (traverse_inputs modules connections fuel l m st).run_order =
          st.run_order ++ new)
      ∧ SchedInv modules connections (m :: gray)
          (traverse_inputs modules connections fuel l m st)
      ∧ (∀ x ∈ (traverse_inputs modules connections fuel l m st).run_order,
          x ∈ st.run_order ∨ Relation.TransGen (dep_edge modules connections) m x)) := by
  intro fuel
  induction fuel with
  | zero =>
      constructor
      · intro m st gray _ hfuel _
        exact absurd hfuel (Nat.not_lt_zero _)
      · intro l m st gray _ hfuel _ _
        exact absurd hfuel (Nat.not_lt_zero _)
  | succ fuel ih =>
      have hP : ∀ (m : ModuleId) (st : Topsort) (gray : List ModuleId),
          SchedInv modules connections gray st →
          unseen modules st.seen < fuel + 1 →
          (∀ g ∈ gray, Relation.TransGen (dep_edge modules connections) g m) →
          (∀ x ∈ st.seen, x ∈ (traverse modules connections (fuel + 1) m st).seen)
          ∧ m ∈ (traverse modules connections (fuel + 1) m st).seen
          ∧ (∃ new, (traverse modules connections (fuel + 1) m st).run_order =
              st.run_order ++ new)
          ∧ SchedInv modules connections gray (traverse modules connections (fuel + 1) m st)
          ∧ (∀ x ∈ (traverse modules connections (fuel + 1) m st).run_order,
              x ∈ st.run_order ∨ Relation.ReflTransGen (dep_edge modules connections) m x) := by
        intro m st gray hinv hfuel hchain
        by_cases hseen : m ∈ st.seen
        · rw [traverse_succ_seen modules connections fuel m st hseen]
          exact ⟨fun x hx => hx, hseen, ⟨[], (List.append_nil _).symm⟩, hinv,
            fun x hx => Or.inl hx⟩
        · cases hmd : lookupA modules m with
          | none =>
              rw [traverse_succ_none modules connections fuel m st hseen hmd]
              have hkey : m ∉ keysA modules := by
                intro hc
                have := (lookupA_isSome_iff modules m).mpr hc
                rw [hmd] at this
                simp at this
              exact ⟨fun x hx => List.mem_cons_of_mem _ hx, List.mem_cons_self _ _,
                ⟨[], (List.append_nil _).symm⟩,
                schedinv_insert_nokey modules connections gray st m hinv hkey,
                fun x hx => Or.inl hx⟩
          | some md =>
              have hkey : m ∈ keysA modules :=
                (lookupA_isSome_iff modules m).mp (by simp [hmd])
              have hinv1 := schedinv_insert modules connections gray st m hinv hseen
              have hfuel1 : unseen modules (m :: st.seen) < fuel := by
                have hdec := unseen_insert_lt modules hnd st.seen m hkey hseen
                omega
              have hl : ∀ i ∈ List.range md.inputs.length, ∀ o : OutputId,
                  lookupA connections ⟨m, i⟩ = some o →
                  dep_edge modules connections m o.module := by
                intro i hi o ho
                exact ⟨md, hmd, i, List.mem_range.mp hi, o, ho, rfl⟩
              have hQ := ih.2 (List.range md.inputs.length) m ⟨st.run_order, m :: st.seen⟩
                gray hinv1 hfuel1 hchain hl
              obtain ⟨hmono, htargets, ⟨new, hro⟩, hinv2, hsound⟩ := hQ
              rw [traverse_succ_some modules connections fuel m st md hseen hmd]
              have hm_seen2 : m ∈ (traverse_inputs modules connections fuel
                  (List.range md.inputs.length) m ⟨st.run_order, m :: st.seen⟩).seen :=
                hmono m (List.mem_cons_self _ _)
              have hm_gray : m ∉ gray := by
                intro hc
                exact hseen (hinv.gray_seen m hc)
              have htargets2 : ∀ n, dep_edge modules connections m n →
                  n ∈ (traverse_inputs modules connections fuel
                    (List.range md.inputs.length) m ⟨st.run_order, m :: st.seen⟩).seen := by
                intro n hdep
                obtain ⟨md', hmd', i, hi, o, ho, hon⟩ := hdep
                rw [hmd] at hmd'
                cases hmd'
                rw [← hon]
                exact htargets i (List.mem_range.mpr hi) o ho
              refine ⟨?_, ?_, ?_, ?_, ?_⟩
              · intro x hx
                exact hmono x (List.mem_cons_of_mem _ hx)
              · exact hm_seen2
              · exact ⟨new ++ [m], by rw [hro, List.append_assoc]⟩
              · exact schedinv_push modules connections gray _ m hinv2 hm_seen2
                  hm_gray htargets2 hchain
              · intro x hx
                rcases List.mem_append.mp hx with hx' | hx'
                · rcases hsound x hx' with h | h
                  · exact Or.inl h
                  · exact Or.inr h.to_reflTransGen
                · rw [List.mem_singleton] at hx'
                  subst hx'
                  exact Or.inr Relation.ReflTransGen.refl
      have hQ : ∀ (l : List Nat) (m : ModuleId) (st : Topsort) (gray : List ModuleId),
          SchedInv modules connections (m :: gray) st →
          unseen modules st.seen < fuel + 1 →
          (∀ g ∈ gray, Relation.TransGen (dep_edge modules connections) g m) →
          (∀ i ∈ l, ∀ o : OutputId, lookupA connections ⟨m, i⟩ = some o →
            dep_edge modules connections m o.module) →
          (∀ x ∈ st.seen, x ∈ (traverse_inputs modules connections (fuel + 1) l m st).seen)
          ∧ (∀ i ∈ l, ∀ o : OutputId, lookupA connections ⟨m, i⟩ = some o →
              o.module ∈ (traverse_inputs modules connections (fuel + 1) l m st).seen)
          ∧ (∃ new, (traverse_inputs modules connections (fuel + 1) l m st).run_order =
              st.run_order ++ new)
          ∧ SchedInv modules connections (m :: gray)
              (traverse_inputs modules connections (fuel + 1) l m st)
          ∧ (∀ x ∈ (traverse_inputs modules connections (fuel + 1) l m st).run_order,
              x ∈ st.run_order ∨ Relation.TransGen (dep_edge modules connections) m x) := by
        intro l
        induction l with
        | nil =>
            intro m st gray hinv hfuel hchain _
            rw [traverse_inputs_nil]
            exact ⟨fun x hx => hx, fun i hi => absurd hi (List.not_mem_nil i),
              ⟨[], (List.append_nil _).symm⟩, hinv, fun x hx => Or.inl hx⟩
        | cons i rest ihl =>
            intro m st gray hinv hfuel hchain hl
            cases hli : lookupA connections ⟨m, i⟩ with
            | none =>
                rw [traverse_inputs_cons_none modules connections (fuel + 1) i rest m st hli]
                have hrest := ihl m st gray hinv hfuel hchain
                  (fun i2 hi2 o ho => hl i2 (List.mem_cons_of_mem _ hi2) o ho)
                obtain ⟨hmono, htargets, hext, hinv', hsound⟩ := hrest
                refine ⟨hmono, ?_, hext, hinv', hsound⟩
                intro i2 hi2 o ho
                rcases List.mem_cons.mp hi2 with rfl | hi2'
                · rw [hli] at ho
                  cases ho
                · exact htargets i2 hi2' o ho
            | some o0 =>
                rw [traverse_inputs_cons_some modules connections (fuel + 1) i rest m st o0 hli]
                have hdep0 : dep_edge modules connections m o0.module :=
                  hl i (List.mem_cons_self _ _) o0 hli
                have hchain' : ∀ g ∈ m :: gray,
                    Relation.TransGen (dep_edge modules connections) g o0.module := by
                  intro g hg
                  rcases List.mem_cons.mp hg with rfl | hg'
                  · exact Relation.TransGen.single hdep0
                  · exact (hchain g hg').tail hdep0
                have hT := hP o0.module st (m :: gray) hinv hfuel hchain'
                obtain ⟨hmonoT, hoT, ⟨newT, hroT⟩, hinvT, hsoundT⟩ := hT
                have hfuelT : unseen modules
                    (traverse modules connections (fuel + 1) o0.module st).seen < fuel + 1 :=
                  lt_of_le_of_lt (unseen_le_of_subset modules _ _ hmonoT) hfuel
                have hrest := ihl m (traverse modules connections (fuel + 1) o0.module st)
                  gray hinvT hfuelT hchain
                  (fun i2 hi2 o ho => hl i2 (List.mem_cons_of_mem _ hi2) o ho)
                obtain ⟨hmono, htargets, ⟨new2, hro2⟩, hinv', hsound⟩ := hrest
                refine ⟨?_, ?_, ?_, hinv', ?_⟩
                · intro x hx
                  exact hmono x (hmonoT x hx)
                · intro i2 hi2 o ho
                  rcases List.mem_cons.mp hi2 with rfl | hi2'
                  · rw [hli] at ho
                    cases ho
                    exact hmono _ hoT
                  · exact htargets i2 hi2' o ho
                · exact ⟨newT ++ new2, by rw [hro2, hroT, List.append_assoc]⟩
                · intro x hx
                  rcases hsound x hx with h | h
                  · rw [hroT] at h
                    rcases List.mem_append.mp h with h' | h'
                    · exact Or.inl h'
                    · rcases hsoundT x (by rw [hroT]; exact List.mem_append_right _ h') with
                        h'' | h''
                      · exact Or.inl h''
                      · rcases (Relation.reflTransGen_iff_eq_or_transGen.mp h'') with
                          rfl | h'''
                        · exact Or.inr (Relation.TransGen.single hdep0)
                        · exact Or.inr ((Relation.TransGen.single hdep0).trans h''')
                  · exact Or.inr h
      exact ⟨hP, hQ⟩

/-- Top-level specification of the DFS forest rooted at the enumeration
`order` of the terminal set. -/
theorem run_order_fold_spec (hnd : (keysA modules).Nodup) :
    ∀ (order : List ModuleId) (st : Topsort),
      SchedInv modules connections [] st →
      SchedInv modules connections []
        (order.foldl (fun st2 id =>
          traverse modules connections (modules.length + 1) id st2) st)
      ∧ (∀ x ∈ st.seen, x ∈ (order.foldl (fun st2 id =>
          traverse modules connections (modules.length + 1) id st2) st).seen)
      ∧ (∀ t ∈ order, t ∈ (order.foldl (fun st2 id =>
          traverse modules connections (modules.length + 1) id st2) st).seen)
      ∧ (∀ x ∈ (order.foldl (fun st2 id =>
          traverse modules connections (modules.length + 1) id st2) st).run_order,
          x ∈ st.run_order
          ∨ ∃ t ∈ order, Relation.ReflTransGen (dep_edge modules connections) t x) := by
  intro order
  induction order with
  | nil =>
      intro st hinv
      exact ⟨hinv, fun x hx => hx, fun t ht => absurd ht (List.not_mem_nil t),
        fun x hx => Or.inl hx⟩
  | cons t rest ih =>
      intro st hinv
      have hfuel : unseen modules st.seen < modules.length + 1 :=
        Nat.lt_succ_of_le (unseen_le_card modules st.seen)
      have hT := (traverse_master modules connections hnd (modules.length + 1)).1
        t st [] hinv hfuel (fun g hg => absurd hg (List.not_mem_nil g))
      obtain ⟨hmonoT, htT, ⟨newT, hroT⟩, hinvT, hsoundT⟩ := hT
      have hrest := ih (traverse modules connections (modules.length + 1) t st) hinvT
      obtain ⟨hinv', hmono', hseen', hsound'⟩ := hrest
      refine ⟨hinv', ?_, ?_, ?_⟩
      · intro x hx
        exact hmono' x (hmonoT x hx)
      · intro t2 ht2
        rcases List.mem_cons.mp ht2 with rfl | ht2'
        · exact hmono' t2 htT
        · exact hseen' t2 ht2'
      · intro x hx
        rcases hsound' x hx with h | h
        · rw [hroT] at h
          rcases List.mem_append.mp h with h' | h'
          · exact Or.inl h'
          · rcases hsoundT x (by rw [hroT]; exact List.mem_append_right _ h') with h'' | h''
            · exact Or.inl h''
            · exact Or.inr ⟨t, List.mem_cons_self _ _, h''⟩
        · obtain ⟨t2, ht2, hrtg⟩ := h
          exact Or.inr ⟨t2, List.mem_cons_of_mem _ ht2, hrtg⟩

end SchedulerMaster

theorem terminal_output_module_isSome (ws : Workspace) (o : OutputId)
    (h : (ws.terminal_type (.output o)).isSome) :
    (lookupA ws.modules o.module).isSome := by
  cases hm : lookupA ws.modules o.module with
  | none => simp [Workspace.terminal_type, hm] at h
  | some m => rfl

/-- Under referential integrity, a connection-map entry at key `⟨m, i⟩`
yields a dependency edge of the DFS from `m` to the source module. -/
theorem dep_edge_of_conn (ws : Workspace) (href : ref_ok ws)
    (m : ModuleId) (i : Nat) (o : OutputId)
    (hconn : lookupA ws.connections ⟨m, i⟩ = some o) :
    dep_edge ws.modules ws.connections m o.module := by
  have hmem := lookupA_mem _ _ _ hconn
  have hrefp := href _ hmem
  obtain ⟨md, hmd⟩ := Option.isSome_iff_exists.mp (terminal_input_module_isSome ws _ hrefp.1)
  have hbound : i < md.inputs.length :=
    (terminal_input_isSome_iff ws ⟨m, i⟩ md hmd).mp hrefp.1
  exact ⟨md, hmd, i, hbound, o, hconn, rfl⟩

/-- The empty scheduler state satisfies the invariant. -/
theorem schedinv_empty (modules : AList ModuleId Module)
    (connections : AList InputId OutputId) :
    SchedInv modules connections [] ⟨[], []⟩ := by
  refine ⟨?_, ?_, ?_, ?_, ?_, ?_, ?_, ?_⟩
  · intro x hx
    exact absurd hx (List.not_mem_nil x)
  · intro g hg
    exact absurd hg (List.not_mem_nil g)
  · intro x hx hk
    exact absurd hx (List.not_mem_nil x)
  · exact List.nodup_nil
  · intro x hx
    exact absurd hx (List.not_mem_nil x)
  · intro x hx
    exact absurd hx (List.not_mem_nil x)
  · intro hacyc x n hdep hx hn
    exact absurd hx (List.not_mem_nil x)
  · intro hacyc x hx
    exact absurd hx (List.not_mem_nil x)

/-- The two-module bare cycle: 1.in0 ← 2.out0 and 2.in0 ← 1.out0, with no
other consumers. Its terminal set is empty, so `run_tick` runs nothing. -/
def wsCycle : Workspace :=
  { module_seq := 3
    modules := [(1, mMono), (2, mMono)]
    geometry := [(1, 0), (2, 0)]
    connections := [(⟨1, 0⟩, ⟨2, 0⟩), (⟨2, 0⟩, ⟨1, 0⟩)]
    indications := [(1, 0), (2, 0)] }

/-- Counterexample for C1: in the bare two-module cycle (a well-formed
workspace satisfying referential integrity), the terminal set of
`run_tick` is empty and the computed run order is empty — neither module
is executed, contradicting "the set of modules executed equals the set of
modules present" and "each tick still runs both modules exactly once". -/
theorem C1_once_per_tick_counterexample :
    (1 ∈ keysA wsCycle.modules)
    ∧ (2 ∈ keysA wsCycle.modules)
    ∧ ref_ok wsCycle
    ∧ terminal_ids wsCycle.modules wsCycle.connections = []
    ∧ run_order wsCycle = [] := by
  exact ⟨by decide, by decide, by decide, by decide, by decide⟩

/-- C1 (amended): in every tick, each module appears at most once in the
run order (the run order has no duplicates), and the set of modules
executed equals the set of modules reachable along dependency edges from
the terminal set; modules from which no terminal module is reachable
forwards — such as the two modules of a bare cycle, where the terminal set
is empty — are not executed. Stated for well-formed workspaces (unique
module keys, referential integrity). -/
theorem C1_run_order_once (ws : Workspace)
    (hnd : (keysA ws.modules).Nodup) (href : ref_ok ws) :
    (run_order ws).Nodup
    ∧ ∀ x, x ∈ run_order ws ↔ sched_reachable ws.modules ws.connections x := by
  have hspec := run_order_fold_spec ws.modules ws.connections hnd
    (terminal_ids ws.modules ws.connections) ⟨[], []⟩
    (schedinv_empty ws.modules ws.connections)
  obtain ⟨hinv, _, hseenall, hsound⟩ := hspec
  constructor
  · exact hinv.ro_nodup
  · intro x
    constructor
    · intro hx
      rcases hsound x hx with h | h
      · exact absurd h (List.not_mem_nil x)
      · exact h
    · rintro ⟨t, ht, hrtg⟩
      have htkeys := terminal_ids_subset_keys ws.modules ws.connections t ht
      have htseen := hseenall t ht
      have htro : t ∈ (((terminal_ids ws.modules ws.connections).foldl
          (fun st2 id => traverse ws.modules ws.connections
            (ws.modules.length + 1) id st2) ⟨[], []⟩)).run_order := by
        rcases hinv.seen_keys t htseen htkeys with h | h
        · exact h
        · exact absurd h (List.not_mem_nil t)
      induction hrtg with
      | refl => exact htro
      | tail hab hbc ihh =>
          have hbro := ihh
          obtain ⟨md, hmd, i, hib, o, ho, hon⟩ := hbc
          have hseenc := hinv.ro_closed _ hbro _ ⟨md, hmd, i, hib, o, ho, hon⟩
          have hkeysc : o.module ∈ keysA ws.modules := by
            have hmem := lookupA_mem _ _ _ ho
            have hrefp := href _ hmem
            have := terminal_output_module_isSome ws o
              (by rw [← hrefp.2]; exact hrefp.1)
            exact (lookupA_isSome_iff _ _).mp this
          rw [hon] at hkeysc
          rcases hinv.seen_keys _ hseenc hkeysc with h | h
          · exact h
          · exact absurd h (List.not_mem_nil _)

/-- Witness for C1: on the two-module chain workspace `wsB` (1.in0 ←
2.out0) the run order is duplicate-free and module 2 is executed, being
reachable from the terminal set. -/
theorem C1_run_order_once_witness :
    (run_order wsB).Nodup
    ∧ (2 ∈ run_order wsB ↔ sched_reachable wsB.modules wsB.connections 2) :=
  ⟨(C1_run_order_once wsB (by decide) (by decide)).1,
   (C1_run_order_once wsB (by decide) (by decide)).2 2⟩

/-- C3: for every well-formed acyclic workspace, if the connection map
maps `InputId(m, i)` to an output of module `n` with `n ≠ m`, and both
modules appear in the run order computed for a tick (under any enumeration
of the terminal set, the enumeration being unspecified in the source),
then `n` precedes `m` in that run order. -/
theorem C3_dependency_order (ws : Workspace) (order : List ModuleId)
    (hnd : (keysA ws.modules).Nodup) (href : ref_ok ws)
    (hacyc : acyclic ws.modules ws.connections)
    (m n : ModuleId) (i : Nat) (o : OutputId)
    (hconn : lookupA ws.connections ⟨m, i⟩ = some o) (hom : o.module = n)
    (hne : n ≠ m)
    (hm : m ∈ run_order_with ws.modules ws.connections order)
    (hn : n ∈ run_order_with ws.modules ws.connections order) :
    (run_order_with ws.modules ws.connections order).indexOf n <
      (run_order_with ws.modules ws.connections order).indexOf m := by
  have hspec := run_order_fold_spec ws.modules ws.connections hnd order ⟨[], []⟩
    (schedinv_empty ws.modules ws.connections)
  have hdep : dep_edge ws.modules ws.connections m n := by
    have h := dep_edge_of_conn ws href m i o hconn
    rw [hom] at h
    exact h
  exact hspec.1.ordered hacyc m n hdep hm hn

/-- The two-module chain workspace: a source module 1 (no inputs, one mono
output) feeding module 2 (one mono input, no outputs). -/
def wsChain : Workspace :=
  { module_seq := 3
    modules := [(1, ⟨0, [], [.mono]⟩), (2, ⟨0, [.mono], []⟩)]
    geometry := [(1, 0), (2, 0)]
    connections := [(⟨2, 0⟩, ⟨1, 0⟩)]
    indications := [(1, 0), (2, 0)] }

theorem wsChain_dep (a b : ModuleId)
    (h : dep_edge wsChain.modules wsChain.connections a b) : a = 2 ∧ b = 1 := by
  obtain ⟨md, hmd, i, hi, o, ho, hob⟩ := h
  have hlk : lookupA wsChain.connections ⟨a, i⟩ =
      if (⟨2, 0⟩ : InputId) = ⟨a, i⟩ then some ⟨1, 0⟩ else none := rfl
  rw [hlk] at ho
  by_cases hc : (⟨2, 0⟩ : InputId) = ⟨a, i⟩
  · rw [if_pos hc] at ho
    have ha : (2 : ModuleId) = a := congrArg InputId.module hc
    have ho' : o = ⟨1, 0⟩ := (Option.some.inj ho).symm
    refine ⟨ha.symm, ?_⟩
    rw [← hob, ho']
  · rw [if_neg hc] at ho
    cases ho

theorem wsChain_acyclic : acyclic wsChain.modules wsChain.connections := by
  intro m hTG
  have hchar : ∀ a b,
      Relation.TransGen (dep_edge wsChain.modules wsChain.connections) a b →
      a = 2 ∧ b = 1 := by
    intro a b h
    induction h with
    | single h1 => exact wsChain_dep _ _ h1
    | tail h1 h2 ihh => exact ⟨ihh.1, (wsChain_dep _ _ h2).2⟩
  obtain ⟨h1, h2⟩ := hchar m m hTG
  exact absurd (h1.symm.trans h2) (by decide)

/-- The DFS is compiled by well-founded recursion, so concrete run orders
are computed by rewriting with its equations rather than by kernel
reduction. -/
theorem run_order_wsChain_eval : run_order wsChain = [1, 2] := by
  simp +decide [run_order, run_order_with, terminal_ids, traverse, traverse_inputs,
    keysA, lookupA, wsChain, List.range_succ, List.range_zero]

/-- Witness for C3: in the chain workspace, module 2 depends on module 1;
both appear in the tick's run order and 1 precedes 2. -/
theorem C3_dependency_order_witness :
    ((keysA wsChain.modules).Nodup ∧ ref_ok wsChain
      ∧ lookupA wsChain.connections ⟨2, 0⟩ = some ⟨1, 0⟩
      ∧ 2 ∈ run_order wsChain ∧ 1 ∈ run_order wsChain)
    ∧ (run_order wsChain).indexOf 1 < (run_order wsChain).indexOf 2 := by
  have h2 : 2 ∈ run_order wsChain := by
    rw [run_order_wsChain_eval]
    decide
  have h1 : 1 ∈ run_order wsChain := by
    rw [run_order_wsChain_eval]
    decide
  refine ⟨⟨by decide, by decide, by decide, h2, h1⟩, ?_⟩
  exact C3_dependency_order wsChain (terminal_ids wsChain.modules wsChain.connections)
    (by decide) (by decide) wsChain_acyclic 2 1 0 ⟨1, 0⟩ (by decide) rfl (by decide) h2 h1

/-- Two disconnected modules: both are terminal, and the run order is
exactly the enumeration order of the terminal set. -/
def wsTwo : Workspace :=
  { module_seq := 3
    modules := [(1, mMono), (2, mMono)]
    geometry := []
    connections := []
    indications := [] }

/-- Counterexample for C4: the terminal set of `run_tick` is a
`std::collections::HashSet` whose iteration order is unspecified, not
ascending `ModuleId`. Over the one workspace `wsTwo` (equal module and
connection maps), two valid enumerations of the same terminal set give
different run orders, so the run order is not a function of the graph
alone and the terminal set is not iterated in ascending id order. -/
theorem run_order_wsTwo_asc : run_order_with wsTwo.modules wsTwo.connections [1, 2] = [1, 2] := by
  simp +decide [run_order_with, traverse, traverse_inputs, lookupA, wsTwo, mMono,
    List.range_succ, List.range_zero]

theorem run_order_wsTwo_desc : run_order_with wsTwo.modules wsTwo.connections [2, 1] = [2, 1] := by
  simp +decide [run_order_with, traverse, traverse_inputs, lookupA, wsTwo, mMono,
    List.range_succ, List.range_zero]

theorem C4_determinism_counterexample :
    List.Perm [2, 1] (terminal_ids wsTwo.modules wsTwo.connections)
    ∧ run_order_with wsTwo.modules wsTwo.connections [1, 2] = [1, 2]
    ∧ run_order_with wsTwo.modules wsTwo.connections [2, 1] = [2, 1]
    ∧ run_order_with wsTwo.modules wsTwo.connections [1, 2] ≠
        run_order_with wsTwo.modules wsTwo.connections [2, 1] := by
  refine ⟨by decide, run_order_wsTwo_asc, run_order_wsTwo_desc, ?_⟩
  rw [run_order_wsTwo_asc, run_order_wsTwo_desc]
  decide

theorem traverse_zero (modules : AList ModuleId Module)
    (connections : AList InputId OutputId) (m : ModuleId) (st : Topsort) :
    traverse modules connections 0 m st = st := by
  rw [traverse]

/-- Congruence of the DFS in the map contents: `traverse` only consults
the maps through lookups. -/
theorem traverse_congr (m1 m2 : AList ModuleId Module)
    (c1 c2 : AList InputId OutputId)
    (hm : ∀ x, lookupA m1 x = lookupA m2 x)
    (hc : ∀ j, lookupA c1 j = lookupA c2 j) :
    ∀ fuel : Nat,
      (∀ mid st, traverse m1 c1 fuel mid st = traverse m2 c2 fuel mid st)
      ∧ (∀ l mid st,
          traverse_inputs m1 c1 fuel l mid st = traverse_inputs m2 c2 fuel l mid st) := by
  intro fuel
  induction fuel with
  | zero =>
      constructor
      · intro mid st
        rw [traverse_zero, traverse_zero]
      · intro l
        induction l with
        | nil =>
            intro mid st
            rw [traverse_inputs_nil, traverse_inputs_nil]
        | cons i rest ihl =>
            intro mid st
            cases hli : lookupA c1 ⟨mid, i⟩ with
            | none =>
                rw [traverse_inputs_cons_none m1 c1 0 i rest mid st hli,
                  traverse_inputs_cons_none m2 c2 0 i rest mid st (by rw [← hc]; exact hli)]
                exact ihl mid st
            | some o =>
                rw [traverse_inputs_cons_some m1 c1 0 i rest mid st o hli,
                  traverse_inputs_cons_some m2 c2 0 i rest mid st o (by rw [← hc]; exact hli),
                  traverse_zero m1 c1 o.module st, traverse_zero m2 c2 o.module st]
                exact ihl mid st
  | succ fuel ihf =>
      have hPc : ∀ mid st,
          traverse m1 c1 (fuel + 1) mid st = traverse m2 c2 (fuel + 1) mid st := by
        intro mid st
        by_cases hseen : mid ∈ st.seen
        · rw [traverse_succ_seen m1 c1 fuel mid st hseen,
            traverse_succ_seen m2 c2 fuel mid st hseen]
        · cases hmd : lookupA m1 mid with
          | none =>
              rw [traverse_succ_none m1 c1 fuel mid st hseen hmd,
                traverse_succ_none m2 c2 fuel mid st hseen (by rw [← hm]; exact hmd)]
          | some md =>
              rw [traverse_succ_some m1 c1 fuel mid st md hseen hmd,
                traverse_succ_some m2 c2 fuel mid st md hseen (by rw [← hm]; exact hmd),
                ihf.2 (List.range md.inputs.length) mid ⟨st.run_order, mid :: st.seen⟩]
      have hQc : ∀ l mid st,
          traverse_inputs m1 c1 (fuel + 1) l mid st =
            traverse_inputs m2 c2 (fuel + 1) l mid st := by
        intro l
        induction l with
        | nil =>
            intro mid st
            rw [traverse_inputs_nil, traverse_inputs_nil]
        | cons i rest ihl =>
            intro mid st
            cases hli : lookupA c1 ⟨mid, i⟩ with
            | none =>
                rw [traverse_inputs_cons_none m1 c1 (fuel + 1) i rest mid st hli,
                  traverse_inputs_cons_none m2 c2 (fuel + 1) i rest mid st
                    (by rw [← hc]; exact hli)]
                exact ihl mid st
            | some o =>
                rw [traverse_inputs_cons_some m1 c1 (fuel + 1) i rest mid st o hli,
                  traverse_inputs_cons_some m2 c2 (fuel + 1) i rest mid st o
                    (by rw [← hc]; exact hli),
                  hPc o.module st]
                exact ihl mid _
      exact ⟨hPc, hQc⟩

/-- C4 (amended): the per-tick run order is a deterministic function of
the module-map content, the connection-map content and the enumeration
order of the terminal set (which the source's `HashSet` leaves
unspecified): two computations over extensionally equal maps with the same
terminal enumeration produce the same sequence; a module's inputs are
iterated in ascending input index order (`for i in 0..len`). It is not a
function of the graph alone, and the terminal set is not iterated in
ascending `ModuleId` order (see the counterexample). -/
theorem C4_run_order_of_maps (wa wb : Workspace) (order : List ModuleId)
    (hnd1 : (keysA wa.modules).Nodup) (hnd2 : (keysA wb.modules).Nodup)
    (hm : ∀ x, lookupA wa.modules x = lookupA wb.modules x)
    (hc : ∀ j, lookupA wa.connections j = lookupA wb.connections j) :
    run_order_with wa.modules wa.connections order =
      run_order_with wb.modules wb.connections order := by
  have hlen : wa.modules.length = wb.modules.length := by
    have hperm : (keysA wa.modules).Perm (keysA wb.modules) := by
      refine (List.perm_ext_iff_of_nodup hnd1 hnd2).mpr ?_
      intro a
      rw [← lookupA_isSome_iff, ← lookupA_isSome_iff, hm a]
    have hpl := hperm.length_eq
    simpa [keysA] using hpl
  have hcong := traverse_congr wa.modules wb.modules wa.connections wb.connections hm hc
  have hfold : ∀ (ord : List ModuleId) (st : Topsort),
      ord.foldl (fun st2 id =>
        traverse wa.modules wa.connections (wb.modules.length + 1) id st2) st =
      ord.foldl (fun st2 id =>
        traverse wb.modules wb.connections (wb.modules.length + 1) id st2) st := by
    intro ord
    induction ord with
    | nil =>
        intro st
        rfl
    | cons t rest ihr =>
        intro st
        rw [List.foldl_cons, List.foldl_cons, (hcong (wb.modules.length + 1)).1 t st]
        exact ihr _
  rw [run_order_with, run_order_with, hlen, hfold order ⟨[], []⟩]

/-- A permutation of `wsTwo`'s module list: the same map content in a
different representation order. -/
def wsTwoPerm : Workspace :=
  { wsTwo with modules := [(2, mMono), (1, mMono)] }

/-- Witness for C4 (amended): `wsTwo` and `wsTwoPerm` have extensionally
equal maps, and with the same terminal enumeration `[1, 2]` they produce
the same run order. -/
theorem C4_run_order_of_maps_witness :
    ((keysA wsTwo.modules).Nodup ∧ (keysA wsTwoPerm.modules).Nodup)
    ∧ run_order_with wsTwo.modules wsTwo.connections [1, 2] =
        run_order_with wsTwoPerm.modules wsTwoPerm.connections [1, 2] := by
  refine ⟨⟨by decide, by decide⟩, ?_⟩
  refine C4_run_order_of_maps wsTwo wsTwoPerm [1, 2] (by decide) (by decide) ?_ ?_
  · intro x
    by_cases h1 : (1 : ModuleId) = x
    · rw [show wsTwo.modules = [(1, mMono), (2, mMono)] from rfl,
        show wsTwoPerm.modules = [(2, mMono), (1, mMono)] from rfl]
      subst h1
      rfl
    · by_cases h2 : (2 : ModuleId) = x
      · rw [show wsTwo.modules = [(1, mMono), (2, mMono)] from rfl,
          show wsTwoPerm.modules = [(2, mMono), (1, mMono)] from rfl]
        subst h2
        rfl
      · rw [show wsTwo.modules = [(1, mMono), (2, mMono)] from rfl,
          show wsTwoPerm.modules = [(2, mMono), (1, mMono)] from rfl]
        simp [lookupA, h1, h2]
  · intro j
    rfl

end Mixlab
